import Mathlib

/-!
The Goodhart hashes (`goodhart_hash.cpp`)

A shallow embedding of the six hash functions `goodhart_hash_1_test` ..
`goodhart_hash_6_test` and of their shared mixing primitive `mix_state`.

Modelling conventions.

* A `uint64_t` is a natural number below `2 ^ 64`; every C operation that can
  leave that range is followed by an explicit `% 2 ^ 64`.
* The two-word state array `state[2]` is the pair `(state[0], state[1])`.
* The key is a list of bytes and `len` the length argument.  The C contract is
  that `len` bytes are readable at `key`; the theorems instantiate
  `len = key.length`.  `len` and `rounds` are `int` in C and are taken here in
  their non-negative range.
* The casts `*((uint64_t *)buffer)` and the final `memcpy` of the state are read
  on a little-endian machine.
* The preprocessor switch `USE_SEED` is the first argument `use_seed` of every
  variant; the shipped value is `USE_SEED = true`.
-/

namespace Goodhart

/-! ## Data model -/

/-- One `uint8_t`. -/
abbrev Byte := Fin 256

/-- The array `uint64_t state[2]`, as the pair `(state[0], state[1])`. -/
abbrev State := Nat × Nat

/-- The switch `#define USE_SEED 1`: seeding is enabled in the shipped source. -/
def USE_SEED : Bool := true

/-- The constant `#define BLOCK_SIZE (128 / 8)`. -/
def BLOCK_SIZE : Nat := 128 / 8

/-- The macro `#define ROTL_64(x, n) ((x << n) | (x >> (64 - n)))` on a `uint64_t`
operand: the left shift is truncated to 64 bits. -/
def ROTL_64 (x n : Nat) : Nat := ((x <<< n) % 2 ^ 64) ||| (x >>> (64 - n))

/-- The rotation constants `ROTS[16]` of `mix_state`. -/
def ROTS : List Nat := [12, 39, 21, 13, 32, 11, 24, 53, 17, 27, 57, 13, 50, 8, 52, 8]

/-! ## Memory layout helpers -/

/-- Value of a byte string read as a little-endian unsigned integer. -/
def le_decode : List Byte → Nat
  | [] => 0
  | b :: bs => b.val + 256 * le_decode bs

/-- The `n` low-order bytes of `x`, least significant first. -/
def le_encode : Nat → Nat → List Byte
  | 0, _ => []
  | n + 1, x => Fin.ofNat x :: le_encode n (x / 256)

/-- The call `memcpy(dst, src, n)`: the first `n` bytes of `dst` are replaced by those of
`src`. -/
def memcpy (dst src : List Byte) (n : Nat) : List Byte := src.take n ++ dst.drop n

/-- The read `*((uint64_t *)(buffer + off))` of eight bytes of the buffer. -/
def load_u64 (buffer : List Byte) (off : Nat) : Nat := le_decode ((buffer.drop off).take 8)

/-- The 16 bytes of `state`, as copied out by `memcpy(out, state, BLOCK_SIZE)`. -/
def state_bytes (state : State) : List Byte := le_encode 8 state.1 ++ le_encode 8 state.2

/-! ## The mixing primitive -/

/-- The body of the `for` loop of `mix_state` at index `i`:
`*a += *b + 1; *b = ROTL_64(*b, ROTS[i % 16]) ^ *a;` -/
def mix_state_body (i : Nat) (st : State) : State :=
  let a := (st.1 + (st.2 + 1) % 2 ^ 64) % 2 ^ 64
  let b := ROTL_64 st.2 (ROTS.getD (i % 16) 0) ^^^ a
  (a, b)

/-- The `for (int i = 0; i < rounds; i++)` loop of `mix_state`, started at index `i`
with `fuel` iterations allowed. -/
def mix_state_loop (rounds : Nat) : Nat → Nat → State → State
  | 0, _, st => st
  | fuel + 1, i, st =>
    if i < rounds then mix_state_loop rounds fuel (i + 1) (mix_state_body i st) else st

/-- The function `static void mix_state(uint64_t *a, uint64_t *b, int rounds)`; the loop
starts at index 0 and never needs more than `rounds` iterations. -/
def mix_state (st : State) (rounds : Nat) : State := mix_state_loop rounds rounds 0 st

/-! ## The six variants -/

/-- The `while (data_len > 0)` loop of `goodhart_hash_1_test`. -/
def goodhart_hash_1_loop (data : List Byte) (data_len : Nat) (state : State) : State :=
  if 0 < data_len then
    let chunk_size := if data_len < BLOCK_SIZE then data_len else BLOCK_SIZE
    let buffer := memcpy (List.replicate BLOCK_SIZE 0) data chunk_size
    let state0 := state.1 ^^^ load_u64 buffer 0
    let state1 := state.2 ^^^ load_u64 buffer 8
    goodhart_hash_1_loop (data.drop chunk_size) (data_len - chunk_size) (state0, state1)
  else state
termination_by data_len
decreasing_by all_goals (simp only [BLOCK_SIZE]; split <;> omega)

/-- The function `void goodhart_hash_1_test(const void *key, int len, uint32_t seed,
void *out)`, returning the 16 bytes written to `out`. -/
def goodhart_hash_1_test (use_seed : Bool) (key : List Byte) (len : Nat) (seed : Nat) :
    List Byte :=
  let state : State := (0, 0)
  let state := if use_seed then mix_state (seed % 2 ^ 32, state.2) 12 else state
  let state := goodhart_hash_1_loop key len state
  let state := mix_state state 12
  state_bytes state

/-- The `while (data_len > 0)` loop of `goodhart_hash_2_test`. -/
def goodhart_hash_2_loop (data : List Byte) (data_len : Nat) (state : State) : State :=
  if 0 < data_len then
    let chunk_size := if data_len < BLOCK_SIZE then data_len else BLOCK_SIZE
    let buffer := memcpy (List.replicate BLOCK_SIZE 0) data chunk_size
    let state0 := state.1 ^^^ load_u64 buffer 0
    let state1 := state.2 ^^^ load_u64 buffer 8
    goodhart_hash_2_loop (data.drop chunk_size) (data_len - chunk_size) (state0, state1)
  else state
termination_by data_len
decreasing_by all_goals (simp only [BLOCK_SIZE]; split <;> omega)

/-- The function `void goodhart_hash_2_test(const void *key, int len, uint32_t seed,
void *out)`, returning the 16 bytes written to `out`. -/
def goodhart_hash_2_test (use_seed : Bool) (key : List Byte) (len : Nat) (seed : Nat) :
    List Byte :=
  let state : State := (0, 0)
  let state := if use_seed then mix_state (seed % 2 ^ 32, state.2) 12 else state
  let state := goodhart_hash_2_loop key len state
  let state : State := (state.1 ^^^ (len % 2 ^ 64), state.2)
  let state := mix_state state 12
  state_bytes state

/-- The `while (data_len > 0)` loop of `goodhart_hash_3_test`. -/
def goodhart_hash_3_loop (data : List Byte) (data_len : Nat) (state : State) : State :=
  if 0 < data_len then
    let chunk_size := if data_len < BLOCK_SIZE then data_len else BLOCK_SIZE
    let buffer := memcpy (List.replicate BLOCK_SIZE 0) data chunk_size
    let state0 := state.1 ^^^ load_u64 buffer 0
    let state1 := state.2 ^^^ load_u64 buffer 8
    let state := mix_state (state0, state1) 12
    goodhart_hash_3_loop (data.drop chunk_size) (data_len - chunk_size) state
  else state
termination_by data_len
decreasing_by all_goals (simp only [BLOCK_SIZE]; split <;> omega)

/-- The function `void goodhart_hash_3_test(const void *key, int len, uint32_t seed,
void *out)`, returning the 16 bytes written to `out`. -/
def goodhart_hash_3_test (use_seed : Bool) (key : List Byte) (len : Nat) (seed : Nat) :
    List Byte :=
  let state : State := (0, 0)
  let state := if use_seed then mix_state (seed % 2 ^ 32, state.2) 12 else state
  let state := goodhart_hash_3_loop key len state
  let state : State := (state.1 ^^^ (len % 2 ^ 64), state.2)
  let state := mix_state state 12
  state_bytes state

/-- The `while (data_len > 0)` loop of `goodhart_hash_4_test`. -/
def goodhart_hash_4_loop (data : List Byte) (data_len : Nat) (state : State) : State :=
  if 0 < data_len then
    let chunk_size := if data_len < BLOCK_SIZE then data_len else BLOCK_SIZE
    let buffer := memcpy (List.replicate BLOCK_SIZE 0) data chunk_size
    let state0 := state.1 ^^^ load_u64 buffer 0
    let state1 := state.2 ^^^ load_u64 buffer 8
    let state := mix_state (state0, state1) 4
    goodhart_hash_4_loop (data.drop chunk_size) (data_len - chunk_size) state
  else state
termination_by data_len
decreasing_by all_goals (simp only [BLOCK_SIZE]; split <;> omega)

/-- The function `void goodhart_hash_4_test(const void *key, int len, uint32_t seed,
void *out)`, returning the 16 bytes written to `out`. -/
def goodhart_hash_4_test (use_seed : Bool) (key : List Byte) (len : Nat) (seed : Nat) :
    List Byte :=
  let state : State := (0, 0)
  let state := if use_seed then mix_state (seed % 2 ^ 32, state.2) 12 else state
  let state := goodhart_hash_4_loop key len state
  let state : State := (state.1 ^^^ (len % 2 ^ 64), state.2)
  let state := mix_state state 12
  state_bytes state

/-- The `while (data_len > 0)` loop of `goodhart_hash_5_test`. -/
def goodhart_hash_5_loop (data : List Byte) (data_len : Nat) (state : State) : State :=
  if 0 < data_len then
    let chunk_size := if data_len < BLOCK_SIZE then data_len else BLOCK_SIZE
    let buffer := memcpy (List.replicate BLOCK_SIZE 0) data chunk_size
    let state0 := state.1 ^^^ load_u64 buffer 0
    let state1 := state.2 ^^^ load_u64 buffer 8
    let state := mix_state (state0, state1) 5
    goodhart_hash_5_loop (data.drop chunk_size) (data_len - chunk_size) state
  else state
termination_by data_len
decreasing_by all_goals (simp only [BLOCK_SIZE]; split <;> omega)

/-- The function `void goodhart_hash_5_test(const void *key, int len, uint32_t seed,
void *out)`, returning the 16 bytes written to `out`. -/
def goodhart_hash_5_test (use_seed : Bool) (key : List Byte) (len : Nat) (seed : Nat) :
    List Byte :=
  let state : State := (0, 0)
  let state := if use_seed then mix_state (seed % 2 ^ 32, state.2) 12 else state
  let state := goodhart_hash_5_loop key len state
  let state : State := (state.1 ^^^ (len % 2 ^ 64), state.2)
  let state := mix_state state 12
  state_bytes state

/-- The `while (data_len > 0)` loop of `goodhart_hash_6_test`. -/
def goodhart_hash_6_loop (data : List Byte) (data_len : Nat) (state : State) : State :=
  if 0 < data_len then
    let chunk_size := if data_len < BLOCK_SIZE then data_len else BLOCK_SIZE
    let buffer := memcpy (List.replicate BLOCK_SIZE 0) data chunk_size
    let state0 := state.1 ^^^ load_u64 buffer 0
    let state1 := state.2 ^^^ load_u64 buffer 8
    let state := mix_state (state0, state1) 5
    goodhart_hash_6_loop (data.drop chunk_size) (data_len - chunk_size) state
  else state
termination_by data_len
decreasing_by all_goals (simp only [BLOCK_SIZE]; split <;> omega)

/-- The function `void goodhart_hash_6_test(const void *key, int len, uint32_t seed,
void *out)`, returning the 16 bytes written to `out`. -/
def goodhart_hash_6_test (use_seed : Bool) (key : List Byte) (len : Nat) (seed : Nat) :
    List Byte :=
  let state : State := (0, 0)
  let state := if use_seed then mix_state (seed % 2 ^ 32, state.2) 12 else state
  let state := goodhart_hash_6_loop key len state
  let state : State := (state.1 ^^^ (len % 2 ^ 64), state.2)
  let state := mix_state state 12
  let state : State := (state.1, 0)
  let state := mix_state state 12
  state_bytes state


/-! ## The control skeleton of the absorption loop -/

/-- One iteration of the `while (data_len > 0)` loop, seen from its control variables. -/
structure Iteration where
  /-- The value of `data_len` when the loop condition is tested. -/
  data_len_before : Nat
  /-- The position `data - key` of the first byte read in this iteration. -/
  offset : Nat
  /-- The value of `chunk_size`. -/
  chunk_size : Nat
  /-- The bytes copied by `memcpy(buffer, data, chunk_size)`. -/
  chunk : List Byte
  /-- The value of `data_len` after `data_len -= chunk_size`. -/
  data_len_after : Nat
  deriving DecidableEq

/-- The control part shared by the six loops (`chunk_size`, `data += chunk_size`,
`data_len -= chunk_size`): the list of iterations run from the pointer `data = key + offset`
with counter `data_len`, together with the value of `data_len` at loop exit. -/
def absorb_iterations (data : List Byte) (data_len : Nat) (offset : Nat) :
    List Iteration × Nat :=
  if 0 < data_len then
    let chunk_size := if data_len < BLOCK_SIZE then data_len else BLOCK_SIZE
    let rest := absorb_iterations (data.drop chunk_size) (data_len - chunk_size)
      (offset + chunk_size)
    (⟨data_len, offset, chunk_size, data.take chunk_size, data_len - chunk_size⟩ :: rest.1,
      rest.2)
  else ([], data_len)
termination_by data_len
decreasing_by all_goals (simp only [BLOCK_SIZE]; split <;> omega)

/-- The data part of one iteration with `R` mixing rounds per block: the chunk is copied
into the zeroed buffer, the two words of the buffer are XORed into the state, and the state
is mixed `R` times (`R = 0` for the loops that do not call `mix_state`). -/
def absorb_iteration (R : Nat) (state : State) (it : Iteration) : State :=
  let buffer := memcpy (List.replicate BLOCK_SIZE 0) it.chunk it.chunk_size
  mix_state (state.1 ^^^ load_u64 buffer 0, state.2 ^^^ load_u64 buffer 8) R

/-! ## Specification-side definitions -/

/-- The number below `2 ^ n` whose bit `j` is `f j`, for every `j < n`. -/
def of_bits (f : Nat → Bool) : Nat → Nat
  | 0 => 0
  | n + 1 => of_bits f n + (if f n then 2 ^ n else 0)

/-- Left rotation of a 64-bit word by `n` places, stated bit by bit: bit `j` of the
result is bit `(j - n) mod 64` of `x`. -/
def rotate_left_64 (x n : Nat) : Nat :=
  of_bits (fun j => x.testBit ((j + (64 - n % 64)) % 64)) 64

/-- The rotation table as the specification lists it. -/
def ROT : List Nat := [12, 39, 21, 13, 32, 11, 24, 53, 17, 27, 57, 13, 50, 8, 52, 8]

/-- One mixing round with index `i`, as the specification writes it. -/
def mix_round (i : Nat) (st : State) : State :=
  let a := (st.1 + st.2 + 1) % 2 ^ 64
  (a, rotate_left_64 st.2 (ROT.getD (i % 16) 0) ^^^ a)

/-- Both words of a state are in the range of `uint64_t`. -/
def Valid (st : State) : Prop := st.1 < 2 ^ 64 ∧ st.2 < 2 ^ 64

instance (st : State) : Decidable (Valid st) := by unfold Valid; infer_instance

/-- A chunk extended on the right with zero bytes to 16 bytes. -/
def zero_pad (c : List Byte) : List Byte := c ++ List.replicate (16 - c.length) 0

/-- The consecutive 16-byte chunks of the key, the last one zero-padded on the right:
chunk `j` holds the key bytes at positions `16 * j .. 16 * j + 15`, and there are
`ceil (n / 16)` chunks. -/
def key_chunks (key : List Byte) : List (List Byte) :=
  (List.range ((key.length + 15) / 16)).map fun j => zero_pad ((key.drop (16 * j)).take 16)

/-- Absorption of one padded chunk: XOR its first 8 bytes (little-endian) into `a`, its
next 8 bytes into `b`, then apply `R` mixing rounds. -/
def absorb_block (R : Nat) (st : State) (c : List Byte) : State :=
  mix_state (st.1 ^^^ le_decode (c.take 8), st.2 ^^^ le_decode (c.drop 8)) R

/-- The parameterised hash of the specification, from the state `init` reached after
seeding: absorb every chunk with `R` rounds each; if `F`, XOR the length into `a`; 12
rounds; if `C`, set `b = 0` and apply 12 more rounds; output `a` then `b`, little-endian. -/
def reference_from (R : Nat) (F C : Bool) (init : State) (key : List Byte) : List Byte :=
  let s1 := (key_chunks key).foldl (absorb_block R) init
  let s2 : State := if F then (s1.1 ^^^ (key.length % 2 ^ 64), s1.2) else s1
  let s3 := mix_state s2 12
  let s4 : State := if C then mix_state (s3.1, 0) 12 else s3
  le_encode 8 s4.1 ++ le_encode 8 s4.2

/-- The parameterised reference hash with seeding: the state starts at `(seed, 0)` and
goes through 12 mixing rounds before absorption. -/
def reference_hash (R : Nat) (F C : Bool) (key : List Byte) (seed : Nat) : List Byte :=
  reference_from R F C (mix_state (seed, 0) 12) key

/-- The key extended with zero bytes to the next multiple of 16 bytes. -/
def pad_to_block (key : List Byte) : List Byte :=
  key ++ List.replicate ((16 - key.length % 16) % 16) 0

/-- The five-byte key `"ABCDE"`. -/
def key_ABCDE : List Byte := [65, 66, 67, 68, 69]

/-- A 16-byte key whose variant-5 output (seed 0) is sixteen zero bytes. -/
def collision_key_1 : List Byte :=
  [134, 97, 8, 1, 165, 111, 11, 64, 12, 222, 140, 75, 233, 171, 215, 34]

/-- A 16-byte key whose variant-5 output (seed 0) is zero except for byte 8, which is 1. -/
def collision_key_2 : List Byte :=
  [0, 93, 112, 169, 42, 0, 149, 61, 15, 116, 107, 137, 144, 204, 114, 45]

/-- Right rotation of a 64-bit word by `n` places, stated bit by bit: bit `j` of the
result is bit `(j + n) mod 64` of `x`. -/
def rotate_right_64 (x n : Nat) : Nat :=
  of_bits (fun j => x.testBit ((j + n % 64) % 64)) 64

/-- The undoing of the mixing round with index `i`, as the specification writes it:
`b := rotate_right_64 (b xor a, ROT[i mod 16])`, then `a := a - b - 1 mod 2^64`. -/
def unmix_round (i : Nat) (st : State) : State :=
  let b := rotate_right_64 (st.2 ^^^ st.1) (ROT.getD (i % 16) 0)
  let a := Int.toNat (((st.1 : Int) - (b : Int) - 1) % 2 ^ 64)
  (a, b)

/-- The undoing of `rounds` mixing rounds: the rounds `rounds - 1, .., 1, 0` are undone in
that order. -/
def unmix_state : State → Nat → State
  | st, 0 => st
  | st, rounds + 1 => unmix_state (unmix_round rounds st) rounds

/-- The content of the 16-byte chunk position `j` of the key: the key bytes at positions
`16 * j .. 16 * j + 15`, as far as they exist. -/
def key_chunk (key : List Byte) (j : Nat) : List Byte := (key.drop (16 * j)).take 16

/-- Bytewise XOR of two byte strings. -/
def xor_bytes (a b : List Byte) : List Byte := List.zipWith (fun x y => x ^^^ y) a b

/-- The 16 bytes to which the zero-padded chunks of the key XOR. -/
def chunk_xor (key : List Byte) : List Byte :=
  (key_chunks key).foldl xor_bytes (List.replicate 16 0)

/-- XOR of the two little-endian words of a 16-byte block into the state. -/
def xor_in (st : State) (c : List Byte) : State :=
  (st.1 ^^^ le_decode (c.take 8), st.2 ^^^ le_decode (c.drop 8))

/-- The five-byte key `"ABCDF"`, differing from `"ABCDE"` in its last byte. -/
def key_ABCDF : List Byte := [65, 66, 67, 68, 70]

/-! ## Bit-level facts -/

theorem of_bits_lt (f : Nat → Bool) (n : Nat) : of_bits f n < 2 ^ n := by
  induction n with
  | zero => simp [of_bits]
  | succ n ih =>
    rw [of_bits, Nat.pow_succ]
    split <;> omega

theorem testBit_of_bits (f : Nat → Bool) (n k : Nat) :
    (of_bits f n).testBit k = (decide (k < n) && f k) := by
  induction n with
  | zero => simp [of_bits]
  | succ n ih =>
    have hlt := of_bits_lt f n
    rw [of_bits]
    rcases Nat.lt_trichotomy k n with h | h | h
    · have hk : k < n + 1 := by omega
      by_cases hf : f n
      · rw [if_pos hf, Nat.add_comm, Nat.testBit_two_pow_add_gt h, ih]
        simp [h, hk]
      · rw [if_neg hf, Nat.add_zero, ih]
        simp [h, hk]
    · subst h
      by_cases hf : f k
      · rw [if_pos hf, Nat.add_comm, Nat.testBit_two_pow_add_eq, Nat.testBit_lt_two_pow hlt]
        simp [hf]
      · rw [if_neg hf, Nat.add_zero, Nat.testBit_lt_two_pow hlt]
        simp [hf]
    · have hk : ¬ k < n + 1 := by omega
      have hpow : 2 ^ (n + 1) ≤ 2 ^ k := Nat.pow_le_pow_right (by decide) (by omega)
      have hbig : of_bits f n + (if f n then 2 ^ n else 0) < 2 ^ k := by
        have : of_bits f n + (if f n then 2 ^ n else 0) < 2 ^ (n + 1) := by
          rw [Nat.pow_succ]; split <;> omega
        omega
      rw [Nat.testBit_lt_two_pow hbig]
      simp [hk]

theorem ROTL_64_lt (x n : Nat) (hx : x < 2 ^ 64) : ROTL_64 x n < 2 ^ 64 := by
  unfold ROTL_64
  apply Nat.or_lt_two_pow
  · exact Nat.mod_lt _ (by decide)
  · rw [Nat.shiftRight_eq_div_pow]
    exact Nat.lt_of_le_of_lt (Nat.div_le_self _ _) hx

theorem ROTL_64_eq_rotate_left_64 (x n : Nat) (hx : x < 2 ^ 64) (h0 : 0 < n) (h64 : n < 64) :
    ROTL_64 x n = rotate_left_64 x n := by
  apply Nat.eq_of_testBit_eq
  intro j
  unfold ROTL_64 rotate_left_64
  rw [testBit_of_bits, Nat.testBit_or, Nat.testBit_mod_two_pow, Nat.testBit_shiftLeft,
    Nat.testBit_shiftRight, Nat.mod_eq_of_lt h64]
  have hhigh : ∀ k, 64 ≤ k → x.testBit k = false := by
    intro k hk
    apply Nat.testBit_lt_two_pow
    exact Nat.lt_of_lt_of_le hx (Nat.pow_le_pow_right (by decide) hk)
  by_cases hj : j < 64
  · by_cases hjn : n ≤ j
    · have e1 : (j + (64 - n)) % 64 = j - n := by omega
      have e2 : x.testBit (64 - n + j) = false := hhigh _ (by omega)
      simp [hj, hjn, e1, e2]
    · have e1 : (j + (64 - n)) % 64 = 64 - n + j := by omega
      have hjn' : ¬ j ≥ n := by omega
      simp [hj, hjn', e1]
  · have e2 : x.testBit (64 - n + j) = false := hhigh _ (by omega)
    simp [hj, e2]


theorem rotate_left_64_inj (x y n : Nat) (hx : x < 2 ^ 64) (hy : y < 2 ^ 64)
    (h : rotate_left_64 x n = rotate_left_64 y n) : x = y := by
  apply Nat.eq_of_testBit_eq
  intro k
  by_cases hk : k < 64
  · have hb := congrArg (fun z => z.testBit ((k + n % 64) % 64)) h
    have hn : n % 64 < 64 := Nat.mod_lt _ (by decide)
    have e1 : ((k + n % 64) % 64 + (64 - n % 64)) % 64 = k := by omega
    have e2 : (k + n % 64) % 64 < 64 := Nat.mod_lt _ (by decide)
    simp only [rotate_left_64, testBit_of_bits, e1, e2, decide_True, Bool.true_and] at hb
    exact hb
  · have hpow : (2 : Nat) ^ 64 ≤ 2 ^ k := Nat.pow_le_pow_right (by decide) (by omega)
    rw [Nat.testBit_lt_two_pow (Nat.lt_of_lt_of_le hx hpow),
      Nat.testBit_lt_two_pow (Nat.lt_of_lt_of_le hy hpow)]

theorem ROTS_getD_eq_ROT (i : Nat) : ROTS.getD i 0 = ROT.getD i 0 := rfl

theorem ROTS_getD_range (i : Nat) : 0 < ROTS.getD (i % 16) 0 ∧ ROTS.getD (i % 16) 0 < 64 := by
  have h : i % 16 < 16 := Nat.mod_lt _ (by decide)
  revert h
  generalize i % 16 = j
  intro h
  interval_cases j <;> decide

/-! ## The mixing primitive -/

theorem mix_state_body_eq_mix_round (i : Nat) (st : State) (h : st.2 < 2 ^ 64) :
    mix_state_body i st = mix_round i st := by
  obtain ⟨h0, h1⟩ := ROTS_getD_range i
  have ha : (st.1 + (st.2 + 1) % 2 ^ 64) % 2 ^ 64 = (st.1 + st.2 + 1) % 2 ^ 64 := by omega
  simp only [mix_state_body, mix_round, ha, ROTL_64_eq_rotate_left_64 _ _ h h0 h1]
  rfl

theorem mix_state_body_valid (i : Nat) (st : State) (h : st.2 < 2 ^ 64) :
    Valid (mix_state_body i st) := by
  have ha : (st.1 + (st.2 + 1) % 2 ^ 64) % 2 ^ 64 < 2 ^ 64 := Nat.mod_lt _ (by decide)
  exact ⟨ha, Nat.xor_lt_two_pow (ROTL_64_lt _ _ h) ha⟩

theorem mix_state_body_inj (i : Nat) (s t : State) (hs : Valid s) (ht : Valid t)
    (h : mix_state_body i s = mix_state_body i t) : s = t := by
  obtain ⟨h0, h1⟩ := ROTS_getD_range i
  obtain ⟨s1, s2⟩ := s
  obtain ⟨t1, t2⟩ := t
  obtain ⟨hs1, hs2⟩ := hs
  obtain ⟨ht1, ht2⟩ := ht
  simp only [mix_state_body, Prod.mk.injEq] at h
  obtain ⟨ha, hb⟩ := h
  simp only at hs1 hs2 ht1 ht2
  rw [ha, Nat.xor_left_inj, ROTL_64_eq_rotate_left_64 _ _ hs2 h0 h1,
    ROTL_64_eq_rotate_left_64 _ _ ht2 h0 h1] at hb
  have e2 : s2 = t2 := rotate_left_64_inj _ _ _ hs2 ht2 hb
  subst e2
  have e1 : s1 = t1 := by omega
  rw [e1]

theorem mix_state_loop_succ (rounds : Nat) :
    ∀ (fuel i : Nat) (st : State), i + fuel = rounds →
      mix_state_loop (rounds + 1) (fuel + 1) i st
        = mix_state_body rounds (mix_state_loop rounds fuel i st) := by
  intro fuel
  induction fuel with
  | zero =>
    intro i st h
    have hi : i = rounds := by omega
    subst hi
    simp [mix_state_loop]
  | succ fuel ih =>
    intro i st h
    have h1 : i < rounds + 1 := by omega
    have h2 : i < rounds := by omega
    rw [mix_state_loop, if_pos h1, ih (i + 1) _ (by omega)]
    conv => rhs; rw [mix_state_loop, if_pos h2]

/-- Fuel beyond the `rounds - i` remaining iterations is never used. -/
theorem mix_state_loop_fuel (rounds : Nat) :
    ∀ (fuel i : Nat) (st : State), rounds - i ≤ fuel →
      mix_state_loop rounds fuel i st = mix_state_loop rounds (rounds - i) i st := by
  intro fuel
  induction fuel with
  | zero =>
    intro i st h
    have e : rounds - i = 0 := by omega
    rw [e]
  | succ fuel ih =>
    intro i st h
    by_cases hi : i < rounds
    · have e : rounds - i = (rounds - (i + 1)) + 1 := by omega
      rw [e]
      simp only [mix_state_loop, if_pos hi]
      exact ih (i + 1) _ (by omega)
    · have e : rounds - i = 0 := by omega
      rw [e]
      simp only [mix_state_loop, if_neg hi]

theorem mix_state_zero (st : State) : mix_state st 0 = st := rfl

theorem mix_state_succ (st : State) (rounds : Nat) :
    mix_state st (rounds + 1) = mix_state_body rounds (mix_state st rounds) :=
  mix_state_loop_succ rounds rounds 0 st (by omega)

theorem mix_state_valid (st : State) (h : Valid st) (rounds : Nat) :
    Valid (mix_state st rounds) := by
  induction rounds with
  | zero => exact h
  | succ r ih => rw [mix_state_succ]; exact mix_state_body_valid _ _ ih.2

theorem mix_state_inj (rounds : Nat) (s t : State) (hs : Valid s) (ht : Valid t)
    (h : mix_state s rounds = mix_state t rounds) : s = t := by
  induction rounds with
  | zero => exact h
  | succ r ih =>
    rw [mix_state_succ, mix_state_succ] at h
    exact ih (mix_state_body_inj _ _ _ (mix_state_valid _ hs _) (mix_state_valid _ ht _) h)

theorem mix_state_eq_foldl (st : State) (h : Valid st) (rounds : Nat) :
    mix_state st rounds = (List.range rounds).foldl (fun s i => mix_round i s) st := by
  induction rounds with
  | zero => rfl
  | succ r ih =>
    rw [mix_state_succ, List.range_succ, List.foldl_append, ← ih,
      mix_state_body_eq_mix_round _ _ (mix_state_valid _ h _).2]
    rfl


/-! ## The absorption loop -/

theorem zero_pad_length (c : List Byte) (h : c.length ≤ 16) : (zero_pad c).length = 16 := by
  simp [zero_pad]; omega

theorem memcpy_zero_buffer (data : List Byte) :
    memcpy (List.replicate BLOCK_SIZE 0) data
        (if data.length < BLOCK_SIZE then data.length else BLOCK_SIZE)
      = zero_pad (data.take 16) := by
  simp only [BLOCK_SIZE, memcpy, zero_pad, List.drop_replicate, List.length_take]
  by_cases h : data.length < 16
  · have e : min 16 data.length = data.length := by omega
    simp [h, e, List.take_of_length_le (Nat.le_of_lt h)]
  · have e : min 16 data.length = 16 := by omega
    simp [h, e]

theorem load_u64_zero (buf : List Byte) : load_u64 buf 0 = le_decode (buf.take 8) := by
  simp [load_u64]

theorem load_u64_eight (buf : List Byte) (h : buf.length = 16) :
    load_u64 buf 8 = le_decode (buf.drop 8) := by
  unfold load_u64
  rw [List.take_of_length_le]
  simp [h]

theorem drop_chunk_size (data : List Byte) :
    data.drop (if data.length < BLOCK_SIZE then data.length else BLOCK_SIZE) = data.drop 16 := by
  simp only [BLOCK_SIZE]
  by_cases h : data.length < 16
  · simp [h, List.drop_of_length_le (Nat.le_of_lt h)]
  · simp [h]

theorem key_chunks_nil : key_chunks [] = [] := rfl

theorem key_chunks_cons (data : List Byte) (h : 0 < data.length) :
    key_chunks data = zero_pad (data.take 16) :: key_chunks (data.drop 16) := by
  unfold key_chunks
  have e : (data.length + 15) / 16 = ((data.drop 16).length + 15) / 16 + 1 := by
    rw [List.length_drop]; omega
  rw [e, List.range_succ_eq_map, List.map_cons, List.map_map]
  congr 1
  apply List.map_congr_left
  intro j _
  simp only [Function.comp, List.drop_drop]
  congr 3
  omega

/-- Any function that satisfies the unfolding equation of the `while (data_len > 0)` loop
with `R` rounds per block folds `absorb_block R` over the chunks of the data. -/
theorem loop_eq_foldl (R : Nat) (f : List Byte → Nat → State → State)
    (hf : ∀ data data_len state, f data data_len state =
      if 0 < data_len then
        f (data.drop (if data_len < BLOCK_SIZE then data_len else BLOCK_SIZE))
          (data_len - (if data_len < BLOCK_SIZE then data_len else BLOCK_SIZE))
          (mix_state
            (state.1 ^^^ load_u64 (memcpy (List.replicate BLOCK_SIZE 0) data
                (if data_len < BLOCK_SIZE then data_len else BLOCK_SIZE)) 0,
             state.2 ^^^ load_u64 (memcpy (List.replicate BLOCK_SIZE 0) data
                (if data_len < BLOCK_SIZE then data_len else BLOCK_SIZE)) 8) R)
      else state) :
    ∀ (n : Nat) (data : List Byte) (state : State), data.length = n →
      f data data.length state = (key_chunks data).foldl (absorb_block R) state := by
  intro n
  induction n using Nat.strong_induction_on with
  | _ n ih =>
    intro data state hn
    rw [hf]
    by_cases hpos : 0 < data.length
    · rw [if_pos hpos, memcpy_zero_buffer, drop_chunk_size, key_chunks_cons data hpos,
        List.foldl_cons, load_u64_zero,
        load_u64_eight _ (zero_pad_length _ (by simp))]
      have hlen : data.length - (if data.length < BLOCK_SIZE then data.length else BLOCK_SIZE)
          = (data.drop 16).length := by
        rw [List.length_drop]; simp only [BLOCK_SIZE]; split <;> omega
      rw [hlen]
      exact ih (data.drop 16).length (by rw [List.length_drop]; omega) _ _ rfl
    · have hnil : data = [] := List.eq_nil_of_length_eq_zero (by omega)
      subst hnil
      simp [key_chunks_nil]

theorem goodhart_hash_1_loop_eq (data : List Byte) (state : State) :
    goodhart_hash_1_loop data data.length state
      = (key_chunks data).foldl (absorb_block 0) state :=
  loop_eq_foldl 0 goodhart_hash_1_loop
    (fun data data_len state => by rw [goodhart_hash_1_loop]; rfl) _ data state rfl

theorem goodhart_hash_2_loop_eq (data : List Byte) (state : State) :
    goodhart_hash_2_loop data data.length state
      = (key_chunks data).foldl (absorb_block 0) state :=
  loop_eq_foldl 0 goodhart_hash_2_loop
    (fun data data_len state => by rw [goodhart_hash_2_loop]; rfl) _ data state rfl

theorem goodhart_hash_3_loop_eq (data : List Byte) (state : State) :
    goodhart_hash_3_loop data data.length state
      = (key_chunks data).foldl (absorb_block 12) state :=
  loop_eq_foldl 12 goodhart_hash_3_loop
    (fun data data_len state => by rw [goodhart_hash_3_loop]) _ data state rfl

theorem goodhart_hash_4_loop_eq (data : List Byte) (state : State) :
    goodhart_hash_4_loop data data.length state
      = (key_chunks data).foldl (absorb_block 4) state :=
  loop_eq_foldl 4 goodhart_hash_4_loop
    (fun data data_len state => by rw [goodhart_hash_4_loop]) _ data state rfl

theorem goodhart_hash_5_loop_eq (data : List Byte) (state : State) :
    goodhart_hash_5_loop data data.length state
      = (key_chunks data).foldl (absorb_block 5) state :=
  loop_eq_foldl 5 goodhart_hash_5_loop
    (fun data data_len state => by rw [goodhart_hash_5_loop]) _ data state rfl

theorem goodhart_hash_6_loop_eq (data : List Byte) (state : State) :
    goodhart_hash_6_loop data data.length state
      = (key_chunks data).foldl (absorb_block 5) state :=
  loop_eq_foldl 5 goodhart_hash_6_loop
    (fun data data_len state => by rw [goodhart_hash_6_loop]) _ data state rfl


theorem goodhart_hash_1_test_eq (use_seed : Bool) (key : List Byte) (seed : Nat) :
    goodhart_hash_1_test use_seed key key.length seed
      = reference_from 0 false false
          (if use_seed then mix_state (seed % 2 ^ 32, 0) 12 else (0, 0)) key := by
  simp only [goodhart_hash_1_test, goodhart_hash_1_loop_eq, reference_from, state_bytes,
    Bool.false_eq_true, if_true, if_false]

theorem goodhart_hash_2_test_eq (use_seed : Bool) (key : List Byte) (seed : Nat) :
    goodhart_hash_2_test use_seed key key.length seed
      = reference_from 0 true false
          (if use_seed then mix_state (seed % 2 ^ 32, 0) 12 else (0, 0)) key := by
  simp only [goodhart_hash_2_test, goodhart_hash_2_loop_eq, reference_from, state_bytes,
    Bool.false_eq_true, if_true, if_false]

theorem goodhart_hash_3_test_eq (use_seed : Bool) (key : List Byte) (seed : Nat) :
    goodhart_hash_3_test use_seed key key.length seed
      = reference_from 12 true false
          (if use_seed then mix_state (seed % 2 ^ 32, 0) 12 else (0, 0)) key := by
  simp only [goodhart_hash_3_test, goodhart_hash_3_loop_eq, reference_from, state_bytes,
    Bool.false_eq_true, if_true, if_false]

theorem goodhart_hash_4_test_eq (use_seed : Bool) (key : List Byte) (seed : Nat) :
    goodhart_hash_4_test use_seed key key.length seed
      = reference_from 4 true false
          (if use_seed then mix_state (seed % 2 ^ 32, 0) 12 else (0, 0)) key := by
  simp only [goodhart_hash_4_test, goodhart_hash_4_loop_eq, reference_from, state_bytes,
    Bool.false_eq_true, if_true, if_false]

theorem goodhart_hash_5_test_eq (use_seed : Bool) (key : List Byte) (seed : Nat) :
    goodhart_hash_5_test use_seed key key.length seed
      = reference_from 5 true false
          (if use_seed then mix_state (seed % 2 ^ 32, 0) 12 else (0, 0)) key := by
  simp only [goodhart_hash_5_test, goodhart_hash_5_loop_eq, reference_from, state_bytes,
    Bool.false_eq_true, if_true, if_false]

theorem goodhart_hash_6_test_eq (use_seed : Bool) (key : List Byte) (seed : Nat) :
    goodhart_hash_6_test use_seed key key.length seed
      = reference_from 5 true true
          (if use_seed then mix_state (seed % 2 ^ 32, 0) 12 else (0, 0)) key := by
  simp only [goodhart_hash_6_test, goodhart_hash_6_loop_eq, reference_from, state_bytes,
    Bool.false_eq_true, if_true, if_false]

/-! ## Byte encoding of the state -/

theorem le_encode_length (n x : Nat) : (le_encode n x).length = n := by
  induction n generalizing x with
  | zero => rfl
  | succ n ih => simp [le_encode, ih]

theorem le_decode_le_encode (n x : Nat) : le_decode (le_encode n x) = x % 256 ^ n := by
  induction n generalizing x with
  | zero => simp [le_encode, le_decode, Nat.mod_one]
  | succ n ih =>
    rw [le_encode, le_decode, ih, Nat.pow_succ', Nat.mod_mul]
    rfl

theorem le_decode_lt (bs : List Byte) : le_decode bs < 256 ^ bs.length := by
  induction bs with
  | nil => simp [le_decode]
  | cons b bs ih =>
    rw [le_decode, List.length_cons, Nat.pow_succ]
    have := b.isLt
    omega

theorem le_decode_lt_u64 (bs : List Byte) (h : bs.length ≤ 8) : le_decode bs < 2 ^ 64 := by
  have h1 := le_decode_lt bs
  have h2 : (256 : Nat) ^ bs.length ≤ 256 ^ 8 := Nat.pow_le_pow_right (by decide) h
  have h3 : (256 : Nat) ^ 8 = 2 ^ 64 := by norm_num
  omega

theorem le_decode_le_encode_u64 (x : Nat) (h : x < 2 ^ 64) : le_decode (le_encode 8 x) = x := by
  rw [le_decode_le_encode]
  exact Nat.mod_eq_of_lt (by norm_num at h ⊢; exact h)

theorem le_encode_inj (x y : Nat) (hx : x < 2 ^ 64) (hy : y < 2 ^ 64)
    (h : le_encode 8 x = le_encode 8 y) : x = y := by
  have := congrArg le_decode h
  rwa [le_decode_le_encode_u64 _ hx, le_decode_le_encode_u64 _ hy] at this

theorem state_bytes_length (st : State) : (state_bytes st).length = 16 := by
  simp [state_bytes, le_encode_length]

theorem state_bytes_take (st : State) : (state_bytes st).take 8 = le_encode 8 st.1 := by
  simp [state_bytes, List.take_append_eq_append_take, le_encode_length]

theorem state_bytes_inj (s t : State) (hs : Valid s) (ht : Valid t)
    (h : state_bytes s = state_bytes t) : s = t := by
  unfold state_bytes at h
  obtain ⟨h1, h2⟩ := List.append_inj h (by simp [le_encode_length])
  exact Prod.ext (le_encode_inj _ _ hs.1 ht.1 h1) (le_encode_inj _ _ hs.2 ht.2 h2)


/-! ## Absorption is a bijection on valid states -/

theorem key_chunks_length (key c : List Byte) (h : c ∈ key_chunks key) : c.length = 16 := by
  simp only [key_chunks, List.mem_map] at h
  obtain ⟨j, _, rfl⟩ := h
  exact zero_pad_length _ (by simp)

theorem absorb_block_valid (R : Nat) (st : State) (c : List Byte) (hst : Valid st)
    (hc : c.length = 16) : Valid (absorb_block R st c) := by
  apply mix_state_valid
  exact ⟨Nat.xor_lt_two_pow hst.1 (le_decode_lt_u64 _ (by simp)),
    Nat.xor_lt_two_pow hst.2 (le_decode_lt_u64 _ (by simp [hc]))⟩

theorem absorb_block_inj (R : Nat) (s t : State) (c : List Byte) (hs : Valid s) (ht : Valid t)
    (hc : c.length = 16) (h : absorb_block R s c = absorb_block R t c) : s = t := by
  have hs' : Valid (s.1 ^^^ le_decode (c.take 8), s.2 ^^^ le_decode (c.drop 8)) :=
    ⟨Nat.xor_lt_two_pow hs.1 (le_decode_lt_u64 _ (by simp)),
      Nat.xor_lt_two_pow hs.2 (le_decode_lt_u64 _ (by simp [hc]))⟩
  have ht' : Valid (t.1 ^^^ le_decode (c.take 8), t.2 ^^^ le_decode (c.drop 8)) :=
    ⟨Nat.xor_lt_two_pow ht.1 (le_decode_lt_u64 _ (by simp)),
      Nat.xor_lt_two_pow ht.2 (le_decode_lt_u64 _ (by simp [hc]))⟩
  have e := mix_state_inj R _ _ hs' ht' h
  simp only [Prod.mk.injEq, Nat.xor_left_inj] at e
  exact Prod.ext e.1 e.2

theorem foldl_absorb_valid (R : Nat) (cs : List (List Byte)) (hcs : ∀ c ∈ cs, c.length = 16)
    (st : State) (hst : Valid st) : Valid (cs.foldl (absorb_block R) st) := by
  induction cs generalizing st with
  | nil => exact hst
  | cons c cs ih =>
    rw [List.foldl_cons]
    exact ih (fun d hd => hcs d (List.mem_cons_of_mem _ hd)) _
      (absorb_block_valid R st c hst (hcs c (List.mem_cons_self _ _)))

theorem foldl_absorb_inj (R : Nat) (cs : List (List Byte)) (hcs : ∀ c ∈ cs, c.length = 16)
    (s t : State) (hs : Valid s) (ht : Valid t)
    (h : cs.foldl (absorb_block R) s = cs.foldl (absorb_block R) t) : s = t := by
  induction cs generalizing s t with
  | nil => exact h
  | cons c cs ih =>
    have hc := hcs c (List.mem_cons_self _ _)
    rw [List.foldl_cons, List.foldl_cons] at h
    exact absorb_block_inj R s t c hs ht hc
      (ih (fun d hd => hcs d (List.mem_cons_of_mem _ hd)) _ _
        (absorb_block_valid R s c hs hc) (absorb_block_valid R t c ht hc) h)

theorem seeded_valid (seed : Nat) : Valid (mix_state (seed % 2 ^ 32, 0) 12) := by
  apply mix_state_valid
  constructor
  · show seed % 2 ^ 32 < 2 ^ 64
    omega
  · show 0 < 2 ^ 64
    omega

theorem initial_valid (use_seed : Bool) (seed : Nat) :
    Valid (if use_seed then mix_state (seed % 2 ^ 32, 0) 12 else (0, 0)) := by
  cases use_seed
  · rw [if_neg Bool.false_ne_true]
    constructor
    · show 0 < 2 ^ 64
      omega
    · show 0 < 2 ^ 64
      omega
  · rw [if_pos rfl]
    exact seeded_valid seed

theorem fold_length_valid (st : State) (n : Nat) (h : Valid st) :
    Valid (st.1 ^^^ n % 2 ^ 64, st.2) :=
  ⟨Nat.xor_lt_two_pow h.1 (Nat.mod_lt _ (by decide)), h.2⟩

/-! ## Properties of the reference hash -/

theorem reference_from_length (R : Nat) (F C : Bool) (init : State) (key : List Byte) :
    (reference_from R F C init key).length = 16 := by
  simp [reference_from, le_encode_length]

/-- Without the collapse step the reference hash is injective in the initial state. -/
theorem reference_from_inj_init (R : Nat) (F : Bool) (key : List Byte) (s t : State)
    (hs : Valid s) (ht : Valid t)
    (h : reference_from R F false s key = reference_from R F false t key) : s = t := by
  have hcs := key_chunks_length key
  have vs := foldl_absorb_valid R (key_chunks key) hcs s hs
  have vt := foldl_absorb_valid R (key_chunks key) hcs t ht
  cases F
  · simp only [reference_from, Bool.false_eq_true, if_false] at h
    have e := state_bytes_inj _ _ (mix_state_valid _ vs 12) (mix_state_valid _ vt 12) h
    exact foldl_absorb_inj R _ hcs s t hs ht (mix_state_inj 12 _ _ vs vt e)
  · simp only [reference_from, Bool.false_eq_true, if_true, if_false] at h
    have vs' := fold_length_valid _ key.length vs
    have vt' := fold_length_valid _ key.length vt
    have e := state_bytes_inj _ _ (mix_state_valid _ vs' 12) (mix_state_valid _ vt' 12) h
    have e2 := mix_state_inj 12 _ _ vs' vt' e
    simp only [Prod.mk.injEq, Nat.xor_left_inj] at e2
    exact foldl_absorb_inj R _ hcs s t hs ht (Prod.ext e2.1 e2.2)

/-- With length folding and no collapse step, two keys with the same chunks and different
lengths (as 64-bit words) hash differently from the same valid initial state. -/
theorem reference_from_length_sensitive (R : Nat) (init : State) (key key' : List Byte)
    (hinit : Valid init) (hchunks : key_chunks key = key_chunks key')
    (hlen : key.length % 2 ^ 64 ≠ key'.length % 2 ^ 64) :
    reference_from R true false init key ≠ reference_from R true false init key' := by
  intro h
  have hcs := key_chunks_length key'
  have v := foldl_absorb_valid R (key_chunks key') hcs init hinit
  have v1 := fold_length_valid _ key.length v
  have v2 := fold_length_valid _ key'.length v
  simp only [reference_from, Bool.false_eq_true, if_true, if_false, hchunks] at h
  have e := state_bytes_inj _ _ (mix_state_valid _ v1 12) (mix_state_valid _ v2 12) h
  have e2 := mix_state_inj 12 _ _ v1 v2 e
  simp only [Prod.mk.injEq, Nat.xor_right_inj, and_true] at e2
  exact hlen e2

/-! ## Zero padding -/

theorem zero_pad_of_length (c : List Byte) (h : c.length = 16) : zero_pad c = c := by
  simp [zero_pad, h]

theorem key_chunks_pad_to_block :
    ∀ (n : Nat) (key : List Byte), key.length = n →
      key_chunks (pad_to_block key) = key_chunks key := by
  intro n
  induction n using Nat.strong_induction_on with
  | _ n ih =>
    intro key hn
    by_cases h0 : key.length = 0
    · have hnil : key = [] := List.eq_nil_of_length_eq_zero h0
      subst hnil
      rfl
    · by_cases h16 : key.length < 16
      · have hp : pad_to_block key = zero_pad key := by
          unfold pad_to_block zero_pad
          congr 2
          omega
        have hl : (zero_pad key).length = 16 := zero_pad_length _ (by omega)
        rw [hp, key_chunks_cons _ (by omega), key_chunks_cons key (by omega),
          List.take_of_length_le (by omega), List.drop_of_length_le (by omega),
          List.take_of_length_le (Nat.le_of_lt h16), List.drop_of_length_le (Nat.le_of_lt h16),
          zero_pad_of_length _ hl]
      · have hplen : 0 < (pad_to_block key).length := by
          simp [pad_to_block]; omega
        have htake : (pad_to_block key).take 16 = key.take 16 := by
          unfold pad_to_block
          rw [List.take_append_of_le_length (by omega)]
        have hdrop : (pad_to_block key).drop 16 = pad_to_block (key.drop 16) := by
          unfold pad_to_block
          rw [List.drop_append_of_le_length (by omega), List.length_drop]
          congr 2
          omega
        rw [key_chunks_cons _ hplen, key_chunks_cons key (by omega), htake, hdrop,
          ih (key.drop 16).length (by rw [List.length_drop]; omega) _ rfl]

theorem pad_to_block_eq (key : List Byte) (h : key.length % 16 ≠ 0) :
    key ++ List.replicate (16 - key.length % 16) 0 = pad_to_block key := by
  unfold pad_to_block
  congr 2
  omega


theorem seeded_init (seed : Nat) :
    (if USE_SEED then mix_state (seed % 2 ^ 32, 0) 12 else ((0, 0) : State))
      = mix_state (seed % 2 ^ 32, 0) 12 :=
  if_pos rfl

theorem unseeded_init (seed : Nat) :
    (if false then mix_state (seed % 2 ^ 32, 0) 12 else ((0, 0) : State)) = (0, 0) :=
  if_neg Bool.false_ne_true

/-! ## The claims -/

/-- C1: with seeding enabled, for every key and every 32-bit seed each of the six
functions `goodhart_hash_1_test` .. `goodhart_hash_6_test` equals the parameterised
reference hash, with `(R, F, C)` equal to `(0, no, no)`, `(0, yes, no)`, `(12, yes, no)`,
`(4, yes, no)`, `(5, yes, no)` and `(5, yes, yes)` respectively. -/
theorem variants_refine_reference_hash (key : List Byte) (seed : Nat) (hseed : seed < 2 ^ 32) :
    goodhart_hash_1_test USE_SEED key key.length seed = reference_hash 0 false false key seed
    ∧ goodhart_hash_2_test USE_SEED key key.length seed = reference_hash 0 true false key seed
    ∧ goodhart_hash_3_test USE_SEED key key.length seed = reference_hash 12 true false key seed
    ∧ goodhart_hash_4_test USE_SEED key key.length seed = reference_hash 4 true false key seed
    ∧ goodhart_hash_5_test USE_SEED key key.length seed = reference_hash 5 true false key seed
    ∧ goodhart_hash_6_test USE_SEED key key.length seed = reference_hash 5 true true key seed := by
  have hs : seed % 2 ^ 32 = seed := Nat.mod_eq_of_lt hseed
  rw [goodhart_hash_1_test_eq, goodhart_hash_2_test_eq, goodhart_hash_3_test_eq,
    goodhart_hash_4_test_eq, goodhart_hash_5_test_eq, goodhart_hash_6_test_eq, seeded_init, hs]
  simp only [reference_hash, and_self]

theorem variants_refine_reference_hash_witness :
    (7 : Nat) < 2 ^ 32
    ∧ goodhart_hash_1_test USE_SEED key_ABCDE key_ABCDE.length 7
        = reference_hash 0 false false key_ABCDE 7
    ∧ goodhart_hash_2_test USE_SEED key_ABCDE key_ABCDE.length 7
        = reference_hash 0 true false key_ABCDE 7
    ∧ goodhart_hash_3_test USE_SEED key_ABCDE key_ABCDE.length 7
        = reference_hash 12 true false key_ABCDE 7
    ∧ goodhart_hash_4_test USE_SEED key_ABCDE key_ABCDE.length 7
        = reference_hash 4 true false key_ABCDE 7
    ∧ goodhart_hash_5_test USE_SEED key_ABCDE key_ABCDE.length 7
        = reference_hash 5 true false key_ABCDE 7
    ∧ goodhart_hash_6_test USE_SEED key_ABCDE key_ABCDE.length 7
        = reference_hash 5 true true key_ABCDE 7 :=
  ⟨by decide, variants_refine_reference_hash key_ABCDE 7 (by decide)⟩

/-- C2: for every pair of 64-bit words `(a, b)` and every round count, `mix_state`
performs the rounds `i = 0 .. rounds - 1` in order, each being `a := (a + b + 1) mod 2^64`
then `b := rotate_left_64 (b, ROT[i mod 16]) xor a`; zero rounds leave the state unchanged,
and `rounds + 1` rounds are `rounds` rounds followed by the round using `ROT[rounds mod 16]`. -/
theorem mix_state_performs_rounds (a b rounds : Nat) (ha : a < 2 ^ 64) (hb : b < 2 ^ 64) :
    mix_state (a, b) rounds = (List.range rounds).foldl (fun st i => mix_round i st) (a, b)
    ∧ mix_state (a, b) 0 = (a, b)
    ∧ mix_state (a, b) (rounds + 1) = mix_round rounds (mix_state (a, b) rounds) := by
  have hv : Valid (a, b) := ⟨ha, hb⟩
  refine ⟨mix_state_eq_foldl _ hv rounds, rfl, ?_⟩
  rw [mix_state_succ, mix_state_body_eq_mix_round _ _ (mix_state_valid _ hv _).2]

theorem mix_state_performs_rounds_witness :
    (1 : Nat) < 2 ^ 64 ∧ (2 : Nat) < 2 ^ 64
    ∧ mix_state (1, 2) 12 = (List.range 12).foldl (fun st i => mix_round i st) (1, 2)
    ∧ mix_state (1, 2) 0 = (1, 2)
    ∧ mix_state (1, 2) (12 + 1) = mix_round 12 (mix_state (1, 2) 12) :=
  ⟨by decide, by decide, mix_state_performs_rounds 1 2 12 (by decide) (by decide)⟩



/-- C3: with seeding enabled the empty key absorbs no block: every loop returns its
state unchanged, variants 1 to 5 all output the state reached by the 12-round seed mix
on `(seed, 0)` followed by the 12-round finalization, and variant 6 outputs that state
after setting `b = 0` and 12 more rounds. -/
theorem empty_key_absorbs_nothing (seed : Nat) (hseed : seed < 2 ^ 32) :
    (∀ st : State, goodhart_hash_1_loop [] 0 st = st ∧ goodhart_hash_2_loop [] 0 st = st
      ∧ goodhart_hash_3_loop [] 0 st = st ∧ goodhart_hash_4_loop [] 0 st = st
      ∧ goodhart_hash_5_loop [] 0 st = st ∧ goodhart_hash_6_loop [] 0 st = st)
    ∧ goodhart_hash_1_test USE_SEED [] 0 seed
        = state_bytes (mix_state (mix_state (seed, 0) 12) 12)
    ∧ goodhart_hash_2_test USE_SEED [] 0 seed
        = state_bytes (mix_state (mix_state (seed, 0) 12) 12)
    ∧ goodhart_hash_3_test USE_SEED [] 0 seed
        = state_bytes (mix_state (mix_state (seed, 0) 12) 12)
    ∧ goodhart_hash_4_test USE_SEED [] 0 seed
        = state_bytes (mix_state (mix_state (seed, 0) 12) 12)
    ∧ goodhart_hash_5_test USE_SEED [] 0 seed
        = state_bytes (mix_state (mix_state (seed, 0) 12) 12)
    ∧ goodhart_hash_6_test USE_SEED [] 0 seed
        = state_bytes (mix_state ((mix_state (mix_state (seed, 0) 12) 12).1, 0) 12) := by
  have hs : seed % 2 ^ 32 = seed := Nat.mod_eq_of_lt hseed
  have l1 : ∀ st : State, goodhart_hash_1_loop [] 0 st = st := fun st => by
    rw [goodhart_hash_1_loop, if_neg (Nat.lt_irrefl 0)]
  have l2 : ∀ st : State, goodhart_hash_2_loop [] 0 st = st := fun st => by
    rw [goodhart_hash_2_loop, if_neg (Nat.lt_irrefl 0)]
  have l3 : ∀ st : State, goodhart_hash_3_loop [] 0 st = st := fun st => by
    rw [goodhart_hash_3_loop, if_neg (Nat.lt_irrefl 0)]
  have l4 : ∀ st : State, goodhart_hash_4_loop [] 0 st = st := fun st => by
    rw [goodhart_hash_4_loop, if_neg (Nat.lt_irrefl 0)]
  have l5 : ∀ st : State, goodhart_hash_5_loop [] 0 st = st := fun st => by
    rw [goodhart_hash_5_loop, if_neg (Nat.lt_irrefl 0)]
  have l6 : ∀ st : State, goodhart_hash_6_loop [] 0 st = st := fun st => by
    rw [goodhart_hash_6_loop, if_neg (Nat.lt_irrefl 0)]
  have hz : ∀ x : Nat, x ^^^ 0 % 2 ^ 64 = x := fun x => by
    rw [Nat.zero_mod, Nat.xor_zero]
  refine ⟨fun st => ⟨l1 st, l2 st, l3 st, l4 st, l5 st, l6 st⟩, ?_, ?_, ?_, ?_, ?_, ?_⟩
  · simp only [goodhart_hash_1_test, l1, USE_SEED, if_true, hs]
  · simp only [goodhart_hash_2_test, l2, USE_SEED, if_true, hs, hz]
  · simp only [goodhart_hash_3_test, l3, USE_SEED, if_true, hs, hz]
  · simp only [goodhart_hash_4_test, l4, USE_SEED, if_true, hs, hz]
  · simp only [goodhart_hash_5_test, l5, USE_SEED, if_true, hs, hz]
  · simp only [goodhart_hash_6_test, l6, USE_SEED, if_true, hs, hz]


theorem empty_key_absorbs_nothing_witness :
    (3 : Nat) < 2 ^ 32
    ∧ (∀ st : State, goodhart_hash_1_loop [] 0 st = st ∧ goodhart_hash_2_loop [] 0 st = st
      ∧ goodhart_hash_3_loop [] 0 st = st ∧ goodhart_hash_4_loop [] 0 st = st
      ∧ goodhart_hash_5_loop [] 0 st = st ∧ goodhart_hash_6_loop [] 0 st = st)
    ∧ goodhart_hash_1_test USE_SEED [] 0 3 = state_bytes (mix_state (mix_state (3, 0) 12) 12)
    ∧ goodhart_hash_2_test USE_SEED [] 0 3 = state_bytes (mix_state (mix_state (3, 0) 12) 12)
    ∧ goodhart_hash_3_test USE_SEED [] 0 3 = state_bytes (mix_state (mix_state (3, 0) 12) 12)
    ∧ goodhart_hash_4_test USE_SEED [] 0 3 = state_bytes (mix_state (mix_state (3, 0) 12) 12)
    ∧ goodhart_hash_5_test USE_SEED [] 0 3 = state_bytes (mix_state (mix_state (3, 0) 12) 12)
    ∧ goodhart_hash_6_test USE_SEED [] 0 3
        = state_bytes (mix_state ((mix_state (mix_state (3, 0) 12) 12).1, 0) 12) :=
  ⟨by decide, empty_key_absorbs_nothing 3 (by decide)⟩

/-- C4: variant 1 ignores the zero padding: for every seed and every key whose length is
not a multiple of 16, the key and the key extended with zero bytes to the next multiple
of 16 have the same variant-1 output; in particular a key of length 5 and the same 5
bytes followed by 11 zero bytes (length 16) hash identically. -/
theorem variant_1_ignores_zero_padding (key : List Byte) (seed : Nat)
    (h : key.length % 16 ≠ 0) :
    goodhart_hash_1_test USE_SEED key key.length seed
      = goodhart_hash_1_test USE_SEED (key ++ List.replicate (16 - key.length % 16) 0)
          (key.length + (16 - key.length % 16)) seed
    ∧ (key.length = 5 →
        goodhart_hash_1_test USE_SEED key 5 seed
          = goodhart_hash_1_test USE_SEED (key ++ List.replicate 11 0) 16 seed) := by
  have main : goodhart_hash_1_test USE_SEED key key.length seed
      = goodhart_hash_1_test USE_SEED (key ++ List.replicate (16 - key.length % 16) 0)
          (key.length + (16 - key.length % 16)) seed := by
    have hlen : key.length + (16 - key.length % 16)
        = (key ++ List.replicate (16 - key.length % 16) (0 : Byte)).length := by simp
    rw [hlen, goodhart_hash_1_test_eq, goodhart_hash_1_test_eq, pad_to_block_eq key h]
    simp only [reference_from, key_chunks_pad_to_block _ key rfl, Bool.false_eq_true, if_false]
  refine ⟨main, fun h5 => ?_⟩
  rw [h5] at main
  exact main

theorem variant_1_ignores_zero_padding_witness :
    key_ABCDE.length % 16 ≠ 0
    ∧ goodhart_hash_1_test USE_SEED key_ABCDE key_ABCDE.length 0
      = goodhart_hash_1_test USE_SEED (key_ABCDE ++ List.replicate (16 - key_ABCDE.length % 16) 0)
          (key_ABCDE.length + (16 - key_ABCDE.length % 16)) 0
    ∧ (key_ABCDE.length = 5 →
        goodhart_hash_1_test USE_SEED key_ABCDE 5 0
          = goodhart_hash_1_test USE_SEED (key_ABCDE ++ List.replicate 11 0) 16 0) :=
  ⟨by decide, variant_1_ignores_zero_padding key_ABCDE 0 (by decide)⟩

/-- Shared step of the padding claims: the reference hash with length folding separates a
key from its zero extension to the next multiple of 16. -/
theorem reference_from_padding_separates (R : Nat) (init : State) (hinit : Valid init)
    (key : List Byte) (h : key.length % 16 ≠ 0) :
    reference_from R true false init key
      ≠ reference_from R true false init (key ++ List.replicate (16 - key.length % 16) 0) := by
  apply reference_from_length_sensitive R init _ _ hinit
  · rw [pad_to_block_eq key h, key_chunks_pad_to_block _ key rfl]
  · rw [List.length_append, List.length_replicate]
    omega

/-- C5: under each of the length-folding variants 2, 3, 4 and 5, for every seed and every
key whose length is not a multiple of 16, the key and the key extended with zero bytes to
the next multiple of 16 hash differently; in particular a key of length 5 and the same 5
bytes followed by 11 zero bytes (length 16) hash differently. -/
theorem length_folding_separates_zero_padding (key : List Byte) (seed : Nat)
    (h : key.length % 16 ≠ 0) :
    (goodhart_hash_2_test USE_SEED key key.length seed
        ≠ goodhart_hash_2_test USE_SEED (key ++ List.replicate (16 - key.length % 16) 0)
            (key.length + (16 - key.length % 16)) seed
      ∧ goodhart_hash_3_test USE_SEED key key.length seed
        ≠ goodhart_hash_3_test USE_SEED (key ++ List.replicate (16 - key.length % 16) 0)
            (key.length + (16 - key.length % 16)) seed
      ∧ goodhart_hash_4_test USE_SEED key key.length seed
        ≠ goodhart_hash_4_test USE_SEED (key ++ List.replicate (16 - key.length % 16) 0)
            (key.length + (16 - key.length % 16)) seed
      ∧ goodhart_hash_5_test USE_SEED key key.length seed
        ≠ goodhart_hash_5_test USE_SEED (key ++ List.replicate (16 - key.length % 16) 0)
            (key.length + (16 - key.length % 16)) seed)
    ∧ (key.length = 5 →
        goodhart_hash_2_test USE_SEED key 5 seed
          ≠ goodhart_hash_2_test USE_SEED (key ++ List.replicate 11 0) 16 seed
        ∧ goodhart_hash_3_test USE_SEED key 5 seed
          ≠ goodhart_hash_3_test USE_SEED (key ++ List.replicate 11 0) 16 seed
        ∧ goodhart_hash_4_test USE_SEED key 5 seed
          ≠ goodhart_hash_4_test USE_SEED (key ++ List.replicate 11 0) 16 seed
        ∧ goodhart_hash_5_test USE_SEED key 5 seed
          ≠ goodhart_hash_5_test USE_SEED (key ++ List.replicate 11 0) 16 seed) := by
  have hlen : key.length + (16 - key.length % 16)
      = (key ++ List.replicate (16 - key.length % 16) (0 : Byte)).length := by simp
  have hv := initial_valid USE_SEED seed
  have main :
      goodhart_hash_2_test USE_SEED key key.length seed
        ≠ goodhart_hash_2_test USE_SEED (key ++ List.replicate (16 - key.length % 16) 0)
            (key.length + (16 - key.length % 16)) seed
      ∧ goodhart_hash_3_test USE_SEED key key.length seed
        ≠ goodhart_hash_3_test USE_SEED (key ++ List.replicate (16 - key.length % 16) 0)
            (key.length + (16 - key.length % 16)) seed
      ∧ goodhart_hash_4_test USE_SEED key key.length seed
        ≠ goodhart_hash_4_test USE_SEED (key ++ List.replicate (16 - key.length % 16) 0)
            (key.length + (16 - key.length % 16)) seed
      ∧ goodhart_hash_5_test USE_SEED key key.length seed
        ≠ goodhart_hash_5_test USE_SEED (key ++ List.replicate (16 - key.length % 16) 0)
            (key.length + (16 - key.length % 16)) seed := by
    rw [hlen, goodhart_hash_2_test_eq, goodhart_hash_2_test_eq, goodhart_hash_3_test_eq,
      goodhart_hash_3_test_eq, goodhart_hash_4_test_eq, goodhart_hash_4_test_eq,
      goodhart_hash_5_test_eq, goodhart_hash_5_test_eq]
    exact ⟨reference_from_padding_separates 0 _ hv key h,
      reference_from_padding_separates 12 _ hv key h,
      reference_from_padding_separates 4 _ hv key h,
      reference_from_padding_separates 5 _ hv key h⟩
  refine ⟨main, fun h5 => ?_⟩
  rw [h5] at main
  exact main

theorem length_folding_separates_zero_padding_witness :
    key_ABCDE.length % 16 ≠ 0
    ∧ (goodhart_hash_2_test USE_SEED key_ABCDE key_ABCDE.length 0
        ≠ goodhart_hash_2_test USE_SEED
            (key_ABCDE ++ List.replicate (16 - key_ABCDE.length % 16) 0)
            (key_ABCDE.length + (16 - key_ABCDE.length % 16)) 0
      ∧ goodhart_hash_3_test USE_SEED key_ABCDE key_ABCDE.length 0
        ≠ goodhart_hash_3_test USE_SEED
            (key_ABCDE ++ List.replicate (16 - key_ABCDE.length % 16) 0)
            (key_ABCDE.length + (16 - key_ABCDE.length % 16)) 0
      ∧ goodhart_hash_4_test USE_SEED key_ABCDE key_ABCDE.length 0
        ≠ goodhart_hash_4_test USE_SEED
            (key_ABCDE ++ List.replicate (16 - key_ABCDE.length % 16) 0)
            (key_ABCDE.length + (16 - key_ABCDE.length % 16)) 0
      ∧ goodhart_hash_5_test USE_SEED key_ABCDE key_ABCDE.length 0
        ≠ goodhart_hash_5_test USE_SEED
            (key_ABCDE ++ List.replicate (16 - key_ABCDE.length % 16) 0)
            (key_ABCDE.length + (16 - key_ABCDE.length % 16)) 0)
    ∧ (key_ABCDE.length = 5 →
        goodhart_hash_2_test USE_SEED key_ABCDE 5 0
          ≠ goodhart_hash_2_test USE_SEED (key_ABCDE ++ List.replicate 11 0) 16 0
        ∧ goodhart_hash_3_test USE_SEED key_ABCDE 5 0
          ≠ goodhart_hash_3_test USE_SEED (key_ABCDE ++ List.replicate 11 0) 16 0
        ∧ goodhart_hash_4_test USE_SEED key_ABCDE 5 0
          ≠ goodhart_hash_4_test USE_SEED (key_ABCDE ++ List.replicate 11 0) 16 0
        ∧ goodhart_hash_5_test USE_SEED key_ABCDE 5 0
          ≠ goodhart_hash_5_test USE_SEED (key_ABCDE ++ List.replicate 11 0) 16 0) :=
  ⟨by decide, length_folding_separates_zero_padding key_ABCDE 0 (by decide)⟩


/-- The collapse step makes the output a function of the first word of the uncollapsed
output. -/
theorem reference_from_collapse (R : Nat) (F : Bool) (init : State) (hinit : Valid init)
    (key : List Byte) :
    reference_from R F true init key
      = state_bytes (mix_state (le_decode ((reference_from R F false init key).take 8), 0) 12) := by
  have hcs := key_chunks_length key
  have v := foldl_absorb_valid R (key_chunks key) hcs init hinit
  cases F
  · simp only [reference_from, Bool.false_eq_true, if_true, if_false]
    rw [List.take_left' (le_encode_length _ _),
      le_decode_le_encode_u64 _ (mix_state_valid _ v 12).1]
    rfl
  · simp only [reference_from, Bool.false_eq_true, if_true, if_false]
    rw [List.take_left' (le_encode_length _ _),
      le_decode_le_encode_u64 _ (mix_state_valid _ (fold_length_valid _ key.length v) 12).1]
    rfl

/-- C6: variant 6 has only 64 bits of effective strength: its output is 12 mixing rounds
applied to `(a5, 0)`, where `a5` is the first 64-bit word of the variant-5 output on the
same key and seed; hence inputs whose variant-5 outputs agree in their first 8 bytes have
identical variant-6 outputs. -/
theorem variant_6_depends_on_first_word_only (key : List Byte) (seed : Nat) :
    goodhart_hash_6_test USE_SEED key key.length seed
      = state_bytes (mix_state
          (le_decode ((goodhart_hash_5_test USE_SEED key key.length seed).take 8), 0) 12)
    ∧ ∀ (key' : List Byte) (seed' : Nat),
        (goodhart_hash_5_test USE_SEED key key.length seed).take 8
          = (goodhart_hash_5_test USE_SEED key' key'.length seed').take 8 →
        goodhart_hash_6_test USE_SEED key key.length seed
          = goodhart_hash_6_test USE_SEED key' key'.length seed' := by
  have main : ∀ (k : List Byte) (s : Nat), goodhart_hash_6_test USE_SEED k k.length s
      = state_bytes (mix_state
          (le_decode ((goodhart_hash_5_test USE_SEED k k.length s).take 8), 0) 12) := by
    intro k s
    rw [goodhart_hash_6_test_eq, goodhart_hash_5_test_eq]
    exact reference_from_collapse 5 true _ (initial_valid USE_SEED s) k
  refine ⟨main key seed, fun key' seed' h => ?_⟩
  rw [main key seed, main key' seed', h]

theorem collision_key_1_hash_5 :
    goodhart_hash_5_test USE_SEED collision_key_1 collision_key_1.length 0
      = [0, 0, 0, 0, 0, 0, 0, 0, 0, 0, 0, 0, 0, 0, 0, 0] := by
  rw [goodhart_hash_5_test_eq]
  decide

theorem collision_key_2_hash_5 :
    goodhart_hash_5_test USE_SEED collision_key_2 collision_key_2.length 0
      = [0, 0, 0, 0, 0, 0, 0, 0, 1, 0, 0, 0, 0, 0, 0, 0] := by
  rw [goodhart_hash_5_test_eq]
  decide

theorem variant_6_depends_on_first_word_only_witness :
    collision_key_1 ≠ collision_key_2
    ∧ goodhart_hash_5_test USE_SEED collision_key_1 collision_key_1.length 0
        ≠ goodhart_hash_5_test USE_SEED collision_key_2 collision_key_2.length 0
    ∧ (goodhart_hash_5_test USE_SEED collision_key_1 collision_key_1.length 0).take 8
        = (goodhart_hash_5_test USE_SEED collision_key_2 collision_key_2.length 0).take 8
    ∧ goodhart_hash_6_test USE_SEED collision_key_1 collision_key_1.length 0
        = goodhart_hash_6_test USE_SEED collision_key_2 collision_key_2.length 0 :=
  ⟨by decide,
    by rw [collision_key_1_hash_5, collision_key_2_hash_5]; decide,
    by rw [collision_key_1_hash_5, collision_key_2_hash_5]; decide,
    (variant_6_depends_on_first_word_only collision_key_1 0).2 collision_key_2 0
      (by rw [collision_key_1_hash_5, collision_key_2_hash_5]; decide)⟩


/-- Distinct 32-bit seeds give distinct states after the seed mix. -/
theorem seeded_state_inj (s1 s2 : Nat) (h1 : s1 < 2 ^ 32) (h2 : s2 < 2 ^ 32)
    (h : mix_state (s1 % 2 ^ 32, 0) 12 = mix_state (s2 % 2 ^ 32, 0) 12) : s1 = s2 := by
  have v1 : Valid (s1 % 2 ^ 32, 0) :=
    ⟨by show s1 % 2 ^ 32 < 2 ^ 64; omega, by show 0 < 2 ^ 64; omega⟩
  have v2 : Valid (s2 % 2 ^ 32, 0) :=
    ⟨by show s2 % 2 ^ 32 < 2 ^ 64; omega, by show 0 < 2 ^ 64; omega⟩
  have e := mix_state_inj 12 _ _ v1 v2 h
  simp only [Prod.mk.injEq, and_true] at e
  omega

/-- Shared step of the seed claims: without the collapse step, distinct 32-bit seeds give
distinct reference outputs on every key. -/
theorem reference_from_seed_sensitive (R : Nat) (F : Bool) (key : List Byte) (s1 s2 : Nat)
    (h1 : s1 < 2 ^ 32) (h2 : s2 < 2 ^ 32) (hne : s1 ≠ s2) :
    reference_from R F false (if USE_SEED then mix_state (s1 % 2 ^ 32, 0) 12 else (0, 0)) key
      ≠ reference_from R F false
          (if USE_SEED then mix_state (s2 % 2 ^ 32, 0) 12 else (0, 0)) key := by
  intro h
  have e := reference_from_inj_init R F key _ _ (initial_valid USE_SEED s1)
    (initial_valid USE_SEED s2) h
  rw [seeded_init, seeded_init] at e
  exact hne (seeded_state_inj s1 s2 h1 h2 e)

/-- C7: seed sensitivity with seeding enabled: for every key and every two distinct
32-bit seeds, the outputs of the same variant differ, for each of variants 1 to 5. -/
theorem seed_sensitivity (key : List Byte) (s1 s2 : Nat) (h1 : s1 < 2 ^ 32)
    (h2 : s2 < 2 ^ 32) (hne : s1 ≠ s2) :
    goodhart_hash_1_test USE_SEED key key.length s1
        ≠ goodhart_hash_1_test USE_SEED key key.length s2
    ∧ goodhart_hash_2_test USE_SEED key key.length s1
        ≠ goodhart_hash_2_test USE_SEED key key.length s2
    ∧ goodhart_hash_3_test USE_SEED key key.length s1
        ≠ goodhart_hash_3_test USE_SEED key key.length s2
    ∧ goodhart_hash_4_test USE_SEED key key.length s1
        ≠ goodhart_hash_4_test USE_SEED key key.length s2
    ∧ goodhart_hash_5_test USE_SEED key key.length s1
        ≠ goodhart_hash_5_test USE_SEED key key.length s2 := by
  rw [goodhart_hash_1_test_eq, goodhart_hash_1_test_eq, goodhart_hash_2_test_eq,
    goodhart_hash_2_test_eq, goodhart_hash_3_test_eq, goodhart_hash_3_test_eq,
    goodhart_hash_4_test_eq, goodhart_hash_4_test_eq, goodhart_hash_5_test_eq,
    goodhart_hash_5_test_eq]
  exact ⟨reference_from_seed_sensitive 0 false key s1 s2 h1 h2 hne,
    reference_from_seed_sensitive 0 true key s1 s2 h1 h2 hne,
    reference_from_seed_sensitive 12 true key s1 s2 h1 h2 hne,
    reference_from_seed_sensitive 4 true key s1 s2 h1 h2 hne,
    reference_from_seed_sensitive 5 true key s1 s2 h1 h2 hne⟩

theorem seed_sensitivity_witness :
    (0 : Nat) < 2 ^ 32 ∧ (1 : Nat) < 2 ^ 32 ∧ (0 : Nat) ≠ 1
    ∧ goodhart_hash_1_test USE_SEED key_ABCDE key_ABCDE.length 0
        ≠ goodhart_hash_1_test USE_SEED key_ABCDE key_ABCDE.length 1
    ∧ goodhart_hash_2_test USE_SEED key_ABCDE key_ABCDE.length 0
        ≠ goodhart_hash_2_test USE_SEED key_ABCDE key_ABCDE.length 1
    ∧ goodhart_hash_3_test USE_SEED key_ABCDE key_ABCDE.length 0
        ≠ goodhart_hash_3_test USE_SEED key_ABCDE key_ABCDE.length 1
    ∧ goodhart_hash_4_test USE_SEED key_ABCDE key_ABCDE.length 0
        ≠ goodhart_hash_4_test USE_SEED key_ABCDE key_ABCDE.length 1
    ∧ goodhart_hash_5_test USE_SEED key_ABCDE key_ABCDE.length 0
        ≠ goodhart_hash_5_test USE_SEED key_ABCDE key_ABCDE.length 1 :=
  ⟨by decide, by decide, by decide,
    seed_sensitivity key_ABCDE 0 1 (by decide) (by decide) (by decide)⟩

/-- C8: under variant 6, with seed 0 and seeding enabled, the key `"ABCDE"` (length 5) and
the key `"ABCDE"` followed by 11 zero bytes (length 16) hash differently. -/
theorem variant_6_ABCDE_padding_differs :
    goodhart_hash_6_test USE_SEED key_ABCDE 5 0
      ≠ goodhart_hash_6_test USE_SEED (key_ABCDE ++ List.replicate 11 0) 16 0 := by
  have e1 := goodhart_hash_6_test_eq USE_SEED key_ABCDE 0
  have e2 := goodhart_hash_6_test_eq USE_SEED (key_ABCDE ++ List.replicate 11 0) 0
  have l1 : key_ABCDE.length = 5 := rfl
  have l2 : (key_ABCDE ++ List.replicate 11 (0 : Byte)).length = 16 := rfl
  rw [l1] at e1
  rw [l2] at e2
  rw [e1, e2]
  decide


/-- Shared step of the seeding-switch claim: without the collapse step, starting from
`(0, 0)` and starting from the seed mix of seed 0 give different outputs on every key. -/
theorem reference_from_unseeded_ne_seeded (R : Nat) (F : Bool) (key : List Byte) :
    reference_from R F false (if false then mix_state (0 % 2 ^ 32, 0) 12 else (0, 0)) key
      ≠ reference_from R F false
          (if true then mix_state (0 % 2 ^ 32, 0) 12 else (0, 0)) key := by
  intro h
  have e := reference_from_inj_init R F key _ _ (initial_valid false 0) (initial_valid true 0) h
  rw [unseeded_init, if_pos rfl] at e
  revert e
  decide

/-- C9: with the seeding switch disabled every variant ignores the seed: the outputs for
any two seeds are identical and equal the variant's absorption and finalization run from
the initial state `(0, 0)` with no seed mix; this is not the seeded computation with
seed 0 (for variants 1 to 5 on every key, for variant 6 on the empty key). -/
theorem seeding_disabled_ignores_seed (key : List Byte) (s1 s2 : Nat) :
    (goodhart_hash_1_test false key key.length s1 = goodhart_hash_1_test false key key.length s2
      ∧ goodhart_hash_1_test false key key.length s1 = reference_from 0 false false (0, 0) key)
    ∧ (goodhart_hash_2_test false key key.length s1 = goodhart_hash_2_test false key key.length s2
      ∧ goodhart_hash_2_test false key key.length s1 = reference_from 0 true false (0, 0) key)
    ∧ (goodhart_hash_3_test false key key.length s1 = goodhart_hash_3_test false key key.length s2
      ∧ goodhart_hash_3_test false key key.length s1 = reference_from 12 true false (0, 0) key)
    ∧ (goodhart_hash_4_test false key key.length s1 = goodhart_hash_4_test false key key.length s2
      ∧ goodhart_hash_4_test false key key.length s1 = reference_from 4 true false (0, 0) key)
    ∧ (goodhart_hash_5_test false key key.length s1 = goodhart_hash_5_test false key key.length s2
      ∧ goodhart_hash_5_test false key key.length s1 = reference_from 5 true false (0, 0) key)
    ∧ (goodhart_hash_6_test false key key.length s1 = goodhart_hash_6_test false key key.length s2
      ∧ goodhart_hash_6_test false key key.length s1 = reference_from 5 true true (0, 0) key)
    ∧ goodhart_hash_1_test false key key.length 0 ≠ goodhart_hash_1_test true key key.length 0
    ∧ goodhart_hash_2_test false key key.length 0 ≠ goodhart_hash_2_test true key key.length 0
    ∧ goodhart_hash_3_test false key key.length 0 ≠ goodhart_hash_3_test true key key.length 0
    ∧ goodhart_hash_4_test false key key.length 0 ≠ goodhart_hash_4_test true key key.length 0
    ∧ goodhart_hash_5_test false key key.length 0 ≠ goodhart_hash_5_test true key key.length 0
    ∧ goodhart_hash_6_test false [] 0 0 ≠ goodhart_hash_6_test true [] 0 0 := by
  refine ⟨⟨?_, ?_⟩, ⟨?_, ?_⟩, ⟨?_, ?_⟩, ⟨?_, ?_⟩, ⟨?_, ?_⟩, ⟨?_, ?_⟩, ?_, ?_, ?_, ?_, ?_, ?_⟩
  · rw [goodhart_hash_1_test_eq, goodhart_hash_1_test_eq, unseeded_init, unseeded_init]
  · rw [goodhart_hash_1_test_eq, unseeded_init]
  · rw [goodhart_hash_2_test_eq, goodhart_hash_2_test_eq, unseeded_init, unseeded_init]
  · rw [goodhart_hash_2_test_eq, unseeded_init]
  · rw [goodhart_hash_3_test_eq, goodhart_hash_3_test_eq, unseeded_init, unseeded_init]
  · rw [goodhart_hash_3_test_eq, unseeded_init]
  · rw [goodhart_hash_4_test_eq, goodhart_hash_4_test_eq, unseeded_init, unseeded_init]
  · rw [goodhart_hash_4_test_eq, unseeded_init]
  · rw [goodhart_hash_5_test_eq, goodhart_hash_5_test_eq, unseeded_init, unseeded_init]
  · rw [goodhart_hash_5_test_eq, unseeded_init]
  · rw [goodhart_hash_6_test_eq, goodhart_hash_6_test_eq, unseeded_init, unseeded_init]
  · rw [goodhart_hash_6_test_eq, unseeded_init]
  · rw [goodhart_hash_1_test_eq, goodhart_hash_1_test_eq]
    exact reference_from_unseeded_ne_seeded 0 false key
  · rw [goodhart_hash_2_test_eq, goodhart_hash_2_test_eq]
    exact reference_from_unseeded_ne_seeded 0 true key
  · rw [goodhart_hash_3_test_eq, goodhart_hash_3_test_eq]
    exact reference_from_unseeded_ne_seeded 12 true key
  · rw [goodhart_hash_4_test_eq, goodhart_hash_4_test_eq]
    exact reference_from_unseeded_ne_seeded 4 true key
  · rw [goodhart_hash_5_test_eq, goodhart_hash_5_test_eq]
    exact reference_from_unseeded_ne_seeded 5 true key
  · have e1 := goodhart_hash_6_test_eq false [] 0
    have e2 := goodhart_hash_6_test_eq true [] 0
    rw [List.length_nil] at e1 e2
    rw [e1, e2]
    decide

/-- C10: every variant is total and has no error result: for every key (the empty key and
keys with zero bytes included), every seed and either setting of the seeding switch, each
of the six variants returns a byte string of length exactly 16. -/
theorem output_is_16_bytes (use_seed : Bool) (key : List Byte) (seed : Nat) :
    (goodhart_hash_1_test use_seed key key.length seed).length = 16
    ∧ (goodhart_hash_2_test use_seed key key.length seed).length = 16
    ∧ (goodhart_hash_3_test use_seed key key.length seed).length = 16
    ∧ (goodhart_hash_4_test use_seed key key.length seed).length = 16
    ∧ (goodhart_hash_5_test use_seed key key.length seed).length = 16
    ∧ (goodhart_hash_6_test use_seed key key.length seed).length = 16 := by
  simp only [goodhart_hash_1_test, goodhart_hash_2_test, goodhart_hash_3_test,
    goodhart_hash_4_test, goodhart_hash_5_test, goodhart_hash_6_test, state_bytes_length,
    and_self]


/-! ## Inverting and composing the mixing primitive -/

theorem rotate_left_64_lt (x n : Nat) : rotate_left_64 x n < 2 ^ 64 := of_bits_lt _ 64

theorem rotate_right_64_lt (x n : Nat) : rotate_right_64 x n < 2 ^ 64 := of_bits_lt _ 64

theorem rotate_left_64_rotate_right_64 (y n : Nat) (hy : y < 2 ^ 64) :
    rotate_left_64 (rotate_right_64 y n) n = y := by
  apply Nat.eq_of_testBit_eq
  intro j
  unfold rotate_left_64
  rw [testBit_of_bits]
  by_cases hj : j < 64
  · have hn : n % 64 < 64 := Nat.mod_lt _ (by decide)
    have e1 : (j + (64 - n % 64)) % 64 < 64 := Nat.mod_lt _ (by decide)
    have e2 : ((j + (64 - n % 64)) % 64 + n % 64) % 64 = j := by omega
    unfold rotate_right_64
    rw [testBit_of_bits]
    simp only [hj, e1, e2, decide_True, Bool.true_and]
  · have hpow : (2 : Nat) ^ 64 ≤ 2 ^ j := Nat.pow_le_pow_right (by decide) (by omega)
    rw [Nat.testBit_lt_two_pow (Nat.lt_of_lt_of_le hy hpow)]
    simp [hj]

theorem unmix_round_valid (i : Nat) (st : State) : Valid (unmix_round i st) := by
  constructor
  · show Int.toNat (((st.1 : Int) - _ - 1) % 2 ^ 64) < 2 ^ 64
    omega
  · exact rotate_right_64_lt _ _

theorem mix_state_body_unmix_round (i : Nat) (st : State) (h : Valid st) :
    mix_state_body i (unmix_round i st) = st := by
  obtain ⟨a, b⟩ := st
  obtain ⟨ha, hb⟩ := h
  simp only at ha hb
  have hv := unmix_round_valid i (a, b)
  rw [mix_state_body_eq_mix_round _ _ hv.2]
  have hr := rotate_right_64_lt (b ^^^ a) (ROT.getD (i % 16) 0)
  have hx : b ^^^ a < 2 ^ 64 := Nat.xor_lt_two_pow hb ha
  have e1 : (Int.toNat (((a : Int) - (rotate_right_64 (b ^^^ a) (ROT.getD (i % 16) 0) : Int) - 1)
      % 2 ^ 64) + rotate_right_64 (b ^^^ a) (ROT.getD (i % 16) 0) + 1) % 2 ^ 64 = a := by
    omega
  simp only [mix_round, unmix_round, e1, rotate_left_64_rotate_right_64 _ _ hx,
    Nat.xor_cancel_right]

theorem unmix_state_valid (st : State) (h : Valid st) (rounds : Nat) :
    Valid (unmix_state st rounds) := by
  induction rounds generalizing st with
  | zero => exact h
  | succ r ih => exact ih _ (unmix_round_valid r st)

theorem mix_state_unmix_state (st : State) (h : Valid st) (rounds : Nat) :
    mix_state (unmix_state st rounds) rounds = st := by
  induction rounds generalizing st with
  | zero => rfl
  | succ r ih =>
    rw [mix_state_succ, unmix_state, ih _ (unmix_round_valid r st),
      mix_state_body_unmix_round _ _ h]

theorem mix_state_body_congr (i j : Nat) (h : i % 16 = j % 16) (st : State) :
    mix_state_body i st = mix_state_body j st := by
  simp only [mix_state_body, h]

theorem mix_state_add_of_period (st : State) (m n : Nat) (hm : m % 16 = 0) :
    mix_state st (m + n) = mix_state (mix_state st m) n := by
  induction n with
  | zero => rfl
  | succ n ih =>
    rw [← Nat.add_assoc, mix_state_succ, mix_state_succ, ih,
      mix_state_body_congr (m + n) n (by omega)]


/-! ## The claims on the rotation table and the mixing primitive -/

/-- C12: the rotation table has exactly 16 entries, every entry lies between 5 and 57; so
for every round index `i` the lookup `ROTS[i mod 16]` is in bounds, both shift amounts `n`
and `64 - n` of `ROTL_64` lie in `[1, 63]`, and `ROTL_64 (x, ROTS[i mod 16])` is the true
64-bit left rotation of the 64-bit word `x` by that amount. -/
theorem rotation_table_in_range (i x : Nat) (hx : x < 2 ^ 64) :
    ROTS.length = 16
    ∧ (∀ r ∈ ROTS, 5 ≤ r ∧ r ≤ 57)
    ∧ i % 16 < ROTS.length
    ∧ ROTS.get? (i % 16) = some (ROTS.getD (i % 16) 0)
    ∧ (1 ≤ ROTS.getD (i % 16) 0 ∧ ROTS.getD (i % 16) 0 ≤ 63)
    ∧ (1 ≤ 64 - ROTS.getD (i % 16) 0 ∧ 64 - ROTS.getD (i % 16) 0 ≤ 63)
    ∧ ROTL_64 x (ROTS.getD (i % 16) 0) = rotate_left_64 x (ROTS.getD (i % 16) 0) := by
  obtain ⟨h0, h1⟩ := ROTS_getD_range i
  have hlen : ROTS.length = 16 := rfl
  have hi : i % 16 < ROTS.length := by rw [hlen]; exact Nat.mod_lt _ (by decide)
  refine ⟨hlen, by decide, hi, ?_, ⟨h0, by omega⟩, ⟨by omega, by omega⟩,
    ROTL_64_eq_rotate_left_64 x _ hx h0 h1⟩
  rw [List.getD_eq_getElem?_getD, List.get?_eq_getElem?, List.getElem?_eq_getElem hi]
  rfl

theorem rotation_table_in_range_witness :
    (9223372036854775813 : Nat) < 2 ^ 64
    ∧ ROTS.length = 16
    ∧ (∀ r ∈ ROTS, 5 ≤ r ∧ r ≤ 57)
    ∧ 37 % 16 < ROTS.length
    ∧ ROTS.get? (37 % 16) = some (ROTS.getD (37 % 16) 0)
    ∧ (1 ≤ ROTS.getD (37 % 16) 0 ∧ ROTS.getD (37 % 16) 0 ≤ 63)
    ∧ (1 ≤ 64 - ROTS.getD (37 % 16) 0 ∧ 64 - ROTS.getD (37 % 16) 0 ≤ 63)
    ∧ ROTL_64 9223372036854775813 (ROTS.getD (37 % 16) 0)
        = rotate_left_64 9223372036854775813 (ROTS.getD (37 % 16) 0) :=
  ⟨by decide, rotation_table_in_range 37 9223372036854775813 (by decide)⟩

/-- C13: every call of the mixing primitive enters the rotation table at index 0, so two
successive 12-round calls are not one 24-round call: on the state `(0, 0)` the two give
different results. -/
theorem two_12_round_calls_differ_from_24_rounds :
    (∀ (st : State) (rounds : Nat),
      mix_state st (rounds + 1) = mix_state_loop (rounds + 1) rounds 1 (mix_state_body 0 st))
    ∧ mix_state (mix_state (0, 0) 12) 12 ≠ mix_state (0, 0) 24 := by
  refine ⟨fun st rounds => ?_, by decide⟩
  rw [mix_state, mix_state_loop, if_pos (Nat.succ_pos rounds)]

/-- C14: for every round count `mix_state` is a bijection on pairs of 64-bit words: it maps
such pairs to such pairs, it is injective, and every pair `t` has the preimage
`unmix_state t rounds`, obtained by undoing the rounds in reverse order with
`b := rotate_right_64 (b xor a, ROT[i mod 16])` and then `a := a - b - 1 mod 2^64`. -/
theorem mix_state_bijective (rounds : Nat) :
    (∀ s : State, Valid s → Valid (mix_state s rounds))
    ∧ (∀ s t : State, Valid s → Valid t → mix_state s rounds = mix_state t rounds → s = t)
    ∧ (∀ t : State, Valid t →
        Valid (unmix_state t rounds) ∧ mix_state (unmix_state t rounds) rounds = t)
    ∧ (∀ s : State, Valid s → unmix_state (mix_state s rounds) rounds = s) := by
  refine ⟨fun s hs => mix_state_valid s hs rounds,
    fun s t hs ht h => mix_state_inj rounds s t hs ht h,
    fun t ht => ⟨unmix_state_valid t ht rounds, mix_state_unmix_state t ht rounds⟩,
    fun s hs => ?_⟩
  have hv := mix_state_valid s hs rounds
  exact mix_state_inj rounds _ _ (unmix_state_valid _ hv rounds) hs
    (mix_state_unmix_state _ hv rounds)

theorem mix_state_bijective_witness :
    Valid (5, 7) ∧ Valid (unmix_state (5, 7) 12) ∧ mix_state (unmix_state (5, 7) 12) 12 = (5, 7)
    ∧ unmix_state (mix_state (5, 7) 12) 12 = (5, 7) :=
  ⟨by decide, ((mix_state_bijective 12).2.2.1 (5, 7) (by decide)).1,
    ((mix_state_bijective 12).2.2.1 (5, 7) (by decide)).2,
    (mix_state_bijective 12).2.2.2 (5, 7) (by decide)⟩

/-- C18: the rotation schedule has period 16: `16 * k + n` rounds are `k` successive
16-round calls followed by an `n`-round call, and `m + n` rounds are an `m`-round call
followed by an `n`-round call whenever `m` is a multiple of 16. -/
theorem rotation_schedule_has_period_16 (st : State) (k n : Nat) :
    mix_state st (16 * k + n) = mix_state (Nat.iterate (fun s => mix_state s 16) k st) n
    ∧ ∀ m : Nat, m % 16 = 0 → mix_state st (m + n) = mix_state (mix_state st m) n := by
  refine ⟨?_, fun m hm => mix_state_add_of_period st m n hm⟩
  induction k generalizing st with
  | zero => simp
  | succ k ih =>
    have e : 16 * (k + 1) + n = 16 + (16 * k + n) := by omega
    rw [e, mix_state_add_of_period st 16 _ rfl, ih]
    rfl

theorem rotation_schedule_has_period_16_witness :
    (32 : Nat) % 16 = 0
    ∧ mix_state (3, 4) (16 * 2 + 5) = mix_state (Nat.iterate (fun s => mix_state s 16) 2 (3, 4)) 5
    ∧ mix_state (3, 4) (32 + 5) = mix_state (mix_state (3, 4) 32) 5 :=
  ⟨by decide, (rotation_schedule_has_period_16 (3, 4) 2 5).1,
    (rotation_schedule_has_period_16 (3, 4) 2 5).2 32 (by decide)⟩



/-! ## The iterations of the absorption loop -/

theorem memcpy_take (dst data : List Byte) (c : Nat) :
    memcpy dst (data.take c) c = memcpy dst data c := by
  simp only [memcpy, List.take_take, Nat.min_self]

/-- Any function that satisfies the unfolding equation of the `while (data_len > 0)` loop
with `R` rounds per block folds `absorb_iteration R` over the iterations of the loop. -/
theorem loop_eq_iterations (R : Nat) (f : List Byte → Nat → State → State)
    (hf : ∀ data data_len state, f data data_len state =
      if 0 < data_len then
        f (data.drop (if data_len < BLOCK_SIZE then data_len else BLOCK_SIZE))
          (data_len - (if data_len < BLOCK_SIZE then data_len else BLOCK_SIZE))
          (mix_state
            (state.1 ^^^ load_u64 (memcpy (List.replicate BLOCK_SIZE 0) data
                (if data_len < BLOCK_SIZE then data_len else BLOCK_SIZE)) 0,
             state.2 ^^^ load_u64 (memcpy (List.replicate BLOCK_SIZE 0) data
                (if data_len < BLOCK_SIZE then data_len else BLOCK_SIZE)) 8) R)
      else state) :
    ∀ (n : Nat) (data : List Byte) (data_len offset : Nat) (state : State), data_len = n →
      f data data_len state
        = (absorb_iterations data data_len offset).1.foldl (absorb_iteration R) state := by
  intro n
  induction n using Nat.strong_induction_on with
  | _ n ih =>
    intro data data_len offset state hn
    rw [hf, absorb_iterations]
    by_cases hpos : 0 < data_len
    · have hdec : data_len - (if data_len < BLOCK_SIZE then data_len else BLOCK_SIZE) < n := by
        simp only [BLOCK_SIZE]; split <;> omega
      rw [if_pos hpos, if_pos hpos]
      simp only [List.foldl_cons, absorb_iteration, memcpy_take]
      exact ih _ hdec _ _ _ _ rfl
    · rw [if_neg hpos, if_neg hpos]
      rfl

theorem absorb_iterations_eq :
    ∀ (n : Nat) (data : List Byte) (offset : Nat), data.length = n →
      absorb_iterations data data.length offset
        = ((List.range ((n + 15) / 16)).map fun j =>
            (⟨n - 16 * j, offset + 16 * j, min (n - 16 * j) 16,
              (data.drop (16 * j)).take (min (n - 16 * j) 16),
              n - 16 * j - min (n - 16 * j) 16⟩ : Iteration), 0) := by
  intro n
  induction n using Nat.strong_induction_on with
  | _ n ih =>
    intro data offset hn
    subst hn
    rw [absorb_iterations]
    by_cases hpos : 0 < data.length
    · have hc : (if data.length < BLOCK_SIZE then data.length else BLOCK_SIZE)
          = min data.length 16 := by
        simp only [BLOCK_SIZE]; split <;> omega
      have hdrop : data.drop (min data.length 16) = data.drop 16 := by
        rw [← hc]; exact drop_chunk_size data
      have hlen : data.length - min data.length 16 = (data.drop 16).length := by
        rw [List.length_drop]; omega
      have e : (data.length + 15) / 16 = ((data.drop 16).length + 15) / 16 + 1 := by
        rw [List.length_drop]; omega
      rw [if_pos hpos]
      simp only [hc, hdrop]
      rw [hlen, ih (data.drop 16).length (by rw [List.length_drop]; omega) (data.drop 16) _ rfl,
        e, List.range_succ_eq_map, List.map_cons, List.map_map]
      simp only [Nat.mul_zero, Nat.sub_zero, Nat.add_zero, List.drop_zero, hlen]
      congr 2
      apply List.map_congr_left
      intro j hj
      rw [List.mem_range, List.length_drop] at hj
      have a1 : (data.drop 16).length - 16 * j = data.length - 16 * (j + 1) := by
        rw [List.length_drop]; omega
      have a2 : offset + min data.length 16 + 16 * j = offset + 16 * (j + 1) := by omega
      have a3 : 16 + 16 * j = 16 * (j + 1) := by omega
      simp only [Function.comp, List.drop_drop, a1, a2, a3, Nat.succ_eq_add_one]
    · have h0 : data.length = 0 := by omega
      rw [if_neg hpos, h0]
      rfl


/-- C11: for every key of length `n` the absorption loop of each variant is the fold of
its body over the iterations of the shared control skeleton; the loop stops after exactly
`ceil (n / 16)` iterations with `data_len = 0`; and iteration `j` starts with
`data_len = n - 16 * j > 0`, consumes the `min (n - 16 * j, 16)` key bytes at positions
`16 * j .. min (16 * j + 16, n) - 1`, and leaves a strictly smaller `data_len`. -/
theorem absorption_loop_iterations (key : List Byte) :
    ((∀ st, goodhart_hash_1_loop key key.length st
          = (absorb_iterations key key.length 0).1.foldl (absorb_iteration 0) st)
      ∧ (∀ st, goodhart_hash_2_loop key key.length st
          = (absorb_iterations key key.length 0).1.foldl (absorb_iteration 0) st)
      ∧ (∀ st, goodhart_hash_3_loop key key.length st
          = (absorb_iterations key key.length 0).1.foldl (absorb_iteration 12) st)
      ∧ (∀ st, goodhart_hash_4_loop key key.length st
          = (absorb_iterations key key.length 0).1.foldl (absorb_iteration 4) st)
      ∧ (∀ st, goodhart_hash_5_loop key key.length st
          = (absorb_iterations key key.length 0).1.foldl (absorb_iteration 5) st)
      ∧ (∀ st, goodhart_hash_6_loop key key.length st
          = (absorb_iterations key key.length 0).1.foldl (absorb_iteration 5) st))
    ∧ (absorb_iterations key key.length 0).1.length = (key.length + 15) / 16
    ∧ (key.length ≤ 16 * ((key.length + 15) / 16)
        ∧ 16 * ((key.length + 15) / 16) < key.length + 16)
    ∧ (absorb_iterations key key.length 0).2 = 0
    ∧ ∀ j, j < (key.length + 15) / 16 →
        ∃ it, (absorb_iterations key key.length 0).1[j]? = some it
          ∧ it.data_len_before = key.length - 16 * j
          ∧ 0 < it.data_len_before
          ∧ it.chunk_size = min (key.length - 16 * j) 16
          ∧ it.offset = 16 * j
          ∧ it.offset + it.chunk_size = min (16 * j + 16) key.length
          ∧ it.chunk = (key.drop (16 * j)).take it.chunk_size
          ∧ it.chunk.length = it.chunk_size
          ∧ it.data_len_after = it.data_len_before - it.chunk_size
          ∧ it.chunk_size ≤ it.data_len_before
          ∧ it.data_len_after < it.data_len_before := by
  refine ⟨⟨fun st => ?_, fun st => ?_, fun st => ?_, fun st => ?_, fun st => ?_, fun st => ?_⟩,
    ?_, ⟨by omega, by omega⟩, ?_, ?_⟩
  · exact loop_eq_iterations 0 goodhart_hash_1_loop
      (fun data data_len state => by rw [goodhart_hash_1_loop]; rfl) _ key _ 0 st rfl
  · exact loop_eq_iterations 0 goodhart_hash_2_loop
      (fun data data_len state => by rw [goodhart_hash_2_loop]; rfl) _ key _ 0 st rfl
  · exact loop_eq_iterations 12 goodhart_hash_3_loop
      (fun data data_len state => by rw [goodhart_hash_3_loop]) _ key _ 0 st rfl
  · exact loop_eq_iterations 4 goodhart_hash_4_loop
      (fun data data_len state => by rw [goodhart_hash_4_loop]) _ key _ 0 st rfl
  · exact loop_eq_iterations 5 goodhart_hash_5_loop
      (fun data data_len state => by rw [goodhart_hash_5_loop]) _ key _ 0 st rfl
  · exact loop_eq_iterations 5 goodhart_hash_6_loop
      (fun data data_len state => by rw [goodhart_hash_6_loop]) _ key _ 0 st rfl
  · rw [absorb_iterations_eq _ key 0 rfl]
    simp only [List.length_map, List.length_range]
  · rw [absorb_iterations_eq _ key 0 rfl]
  · intro j hj
    rw [absorb_iterations_eq _ key 0 rfl]
    refine ⟨⟨key.length - 16 * j, 16 * j, min (key.length - 16 * j) 16,
      (key.drop (16 * j)).take (min (key.length - 16 * j) 16),
      key.length - 16 * j - min (key.length - 16 * j) 16⟩, ?_, ?_⟩
    · simp only [List.getElem?_map, List.getElem?_range hj, Option.map_some', Nat.zero_add]
    · refine ⟨rfl, ?_, rfl, rfl, ?_, rfl, ?_, rfl, ?_, ?_⟩
      · show 0 < key.length - 16 * j
        omega
      · show 16 * j + min (key.length - 16 * j) 16 = min (16 * j + 16) key.length
        omega
      · show ((key.drop (16 * j)).take (min (key.length - 16 * j) 16)).length
          = min (key.length - 16 * j) 16
        rw [List.length_take, List.length_drop]
        omega
      · show min (key.length - 16 * j) 16 ≤ key.length - 16 * j
        omega
      · show key.length - 16 * j - min (key.length - 16 * j) 16 < key.length - 16 * j
        omega

theorem absorption_loop_iterations_witness :
    (0 : Nat) < (key_ABCDE.length + 15) / 16
    ∧ (absorb_iterations key_ABCDE key_ABCDE.length 0).1.length = (key_ABCDE.length + 15) / 16
    ∧ (absorb_iterations key_ABCDE key_ABCDE.length 0).2 = 0
    ∧ ∃ it, (absorb_iterations key_ABCDE key_ABCDE.length 0).1[0]? = some it
          ∧ it.data_len_before = key_ABCDE.length - 16 * 0
          ∧ 0 < it.data_len_before
          ∧ it.chunk_size = min (key_ABCDE.length - 16 * 0) 16
          ∧ it.offset = 16 * 0
          ∧ it.offset + it.chunk_size = min (16 * 0 + 16) key_ABCDE.length
          ∧ it.chunk = (key_ABCDE.drop (16 * 0)).take it.chunk_size
          ∧ it.chunk.length = it.chunk_size
          ∧ it.data_len_after = it.data_len_before - it.chunk_size
          ∧ it.chunk_size ≤ it.data_len_before
          ∧ it.data_len_after < it.data_len_before :=
  ⟨by decide, (absorption_loop_iterations key_ABCDE).2.1,
    (absorption_loop_iterations key_ABCDE).2.2.2.1,
    (absorption_loop_iterations key_ABCDE).2.2.2.2 0 (by decide)⟩


/-! ## Bytewise XOR and the little-endian words -/

theorem byte_xor_val (x y : Byte) : (x ^^^ y).val = x.val ^^^ y.val := by
  have h : x.val ^^^ y.val < 2 ^ 8 := Nat.xor_lt_two_pow x.isLt y.isLt
  show (x.val ^^^ y.val) % 256 = x.val ^^^ y.val
  exact Nat.mod_eq_of_lt h

theorem byte_xor_right_comm (z x y : Byte) : (z ^^^ x) ^^^ y = (z ^^^ y) ^^^ x := by
  apply Fin.ext
  rw [byte_xor_val, byte_xor_val, byte_xor_val, byte_xor_val, Nat.xor_assoc, Nat.xor_assoc,
    Nat.xor_comm x.val]

theorem byte_xor_cancel (z x : Byte) : (z ^^^ x) ^^^ x = z := by
  apply Fin.ext
  rw [byte_xor_val, byte_xor_val, Nat.xor_cancel_right]

theorem xor_low_high (x y A B : Nat) (hx : x < 256) (hy : y < 256) :
    (x + 256 * A) ^^^ (y + 256 * B) = (x ^^^ y) + 256 * (A ^^^ B) := by
  have hx8 : x < 2 ^ 8 := hx
  have hy8 : y < 2 ^ 8 := hy
  have hxy : x ^^^ y < 2 ^ 8 := Nat.xor_lt_two_pow hx8 hy8
  have e256 : (256 : Nat) = 2 ^ 8 := by decide
  rw [e256, Nat.add_comm x, Nat.add_comm y, Nat.add_comm (x ^^^ y)]
  apply Nat.eq_of_testBit_eq
  intro j
  rw [Nat.testBit_xor, Nat.testBit_mul_pow_two_add _ hx8, Nat.testBit_mul_pow_two_add _ hy8,
    Nat.testBit_mul_pow_two_add _ hxy]
  by_cases hj : j < 8
  · simp only [hj, if_true, Nat.testBit_xor]
  · simp only [hj, if_false, Nat.testBit_xor]

theorem xor_bytes_length (a b : List Byte) (h : a.length = b.length) :
    (xor_bytes a b).length = a.length := by
  simp [xor_bytes, h]

theorem le_decode_xor_bytes (a b : List Byte) (h : a.length = b.length) :
    le_decode (xor_bytes a b) = le_decode a ^^^ le_decode b := by
  induction a generalizing b with
  | nil =>
    cases b with
    | nil => rfl
    | cons y bs => simp at h
  | cons x as ih =>
    cases b with
    | nil => simp at h
    | cons y bs =>
      have hl : as.length = bs.length := by simpa using h
      have e := ih bs hl
      simp only [xor_bytes] at e
      simp only [xor_bytes, List.zipWith_cons_cons, le_decode, byte_xor_val, e]
      exact (xor_low_high _ _ _ _ x.isLt y.isLt).symm

theorem le_decode_replicate_zero (n : Nat) : le_decode (List.replicate n 0) = 0 := by
  induction n with
  | zero => rfl
  | succ n ih => simp [List.replicate_succ, le_decode, ih]

theorem le_decode_inj (a b : List Byte) (h : a.length = b.length)
    (e : le_decode a = le_decode b) : a = b := by
  induction a generalizing b with
  | nil =>
    cases b with
    | nil => rfl
    | cons y bs => simp at h
  | cons x as ih =>
    cases b with
    | nil => simp at h
    | cons y bs =>
      have hl : as.length = bs.length := by simpa using h
      simp only [le_decode] at e
      have hx := x.isLt
      have hy := y.isLt
      have e1 : x.val = y.val := by omega
      have e2 : le_decode as = le_decode bs := by omega
      rw [Fin.ext e1, ih bs hl e2]

theorem absorb_block_zero (st : State) (c : List Byte) : absorb_block 0 st c = xor_in st c := rfl

theorem xor_in_xor_in (st : State) (acc c : List Byte) (hacc : acc.length = 16)
    (hc : c.length = 16) : xor_in (xor_in st acc) c = xor_in st (xor_bytes acc c) := by
  simp only [xor_in, xor_bytes, List.take_zipWith, List.drop_zipWith]
  have e1 := le_decode_xor_bytes (acc.take 8) (c.take 8) (by simp [hacc, hc])
  have e2 := le_decode_xor_bytes (acc.drop 8) (c.drop 8) (by simp [hacc, hc])
  simp only [xor_bytes] at e1 e2
  rw [e1, e2, Nat.xor_assoc, Nat.xor_assoc]

theorem xor_in_zero (st : State) : xor_in st (List.replicate 16 0) = st := by
  simp only [xor_in, List.take_replicate, List.drop_replicate, le_decode_replicate_zero,
    Nat.xor_zero]

theorem foldl_absorb_zero_acc (cs : List (List Byte)) (hcs : ∀ c ∈ cs, c.length = 16)
    (acc : List Byte) (hacc : acc.length = 16) (st : State) :
    cs.foldl (absorb_block 0) (xor_in st acc) = xor_in st (cs.foldl xor_bytes acc) := by
  induction cs generalizing acc with
  | nil => rfl
  | cons c cs ih =>
    have hc := hcs c (List.mem_cons_self _ _)
    rw [List.foldl_cons, List.foldl_cons, absorb_block_zero, xor_in_xor_in st acc c hacc hc]
    exact ih (fun d hd => hcs d (List.mem_cons_of_mem _ hd)) _
      (by rw [xor_bytes_length _ _ (by rw [hacc, hc]), hacc])

/-- With no mixing per block, absorption only sees the XOR of the chunks. -/
theorem foldl_absorb_zero_eq_chunk_xor (key : List Byte) (st : State) :
    (key_chunks key).foldl (absorb_block 0) st = xor_in st (chunk_xor key) := by
  have h := foldl_absorb_zero_acc (key_chunks key) (key_chunks_length key)
    (List.replicate 16 0) (by simp) st
  rw [xor_in_zero] at h
  exact h


theorem xor_bytes_right_comm (z x y : List Byte) :
    xor_bytes (xor_bytes z x) y = xor_bytes (xor_bytes z y) x := by
  induction z generalizing x y with
  | nil => simp [xor_bytes]
  | cons a z ih =>
    cases x with
    | nil =>
      cases y with
      | nil => rfl
      | cons c y => simp [xor_bytes]
    | cons b x =>
      cases y with
      | nil => simp [xor_bytes]
      | cons c y =>
        have e := ih x y
        simp only [xor_bytes] at e
        simp only [xor_bytes, List.zipWith_cons_cons, e, byte_xor_right_comm a b c]

theorem xor_bytes_cancel (z x : List Byte) (h : z.length = x.length) :
    xor_bytes (xor_bytes z x) x = z := by
  induction z generalizing x with
  | nil => simp [xor_bytes]
  | cons a z ih =>
    cases x with
    | nil => simp at h
    | cons b x =>
      have e := ih x (by simpa using h)
      simp only [xor_bytes] at e
      simp only [xor_bytes, List.zipWith_cons_cons, e, byte_xor_cancel]

theorem key_chunks_flatten_append (blocks : List (List Byte))
    (hb : ∀ b ∈ blocks, b.length = 16) (tail : List Byte) :
    key_chunks (blocks.flatten ++ tail) = blocks ++ key_chunks tail := by
  induction blocks with
  | nil => rfl
  | cons b bs ih =>
    have hl := hb b (List.mem_cons_self _ _)
    rw [List.flatten_cons, List.append_assoc,
      key_chunks_cons _ (by rw [List.length_append, hl]; omega),
      List.take_left' hl, List.drop_left' hl, zero_pad_of_length _ hl,
      ih (fun d hd => hb d (List.mem_cons_of_mem _ hd)), List.cons_append]

theorem flatten_length_of_blocks (blocks : List (List Byte))
    (hb : ∀ b ∈ blocks, b.length = 16) : blocks.flatten.length = 16 * blocks.length := by
  induction blocks with
  | nil => rfl
  | cons b bs ih =>
    rw [List.flatten_cons, List.length_append, hb b (List.mem_cons_self _ _),
      ih (fun d hd => hb d (List.mem_cons_of_mem _ hd)), List.length_cons]
    omega

theorem chunk_xor_perm (blocks blocks' : List (List Byte)) (hb : ∀ b ∈ blocks, b.length = 16)
    (hp : blocks.Perm blocks') (tail : List Byte) :
    chunk_xor (blocks.flatten ++ tail) = chunk_xor (blocks'.flatten ++ tail) := by
  have hb' : ∀ b ∈ blocks', b.length = 16 := fun b h => hb b (hp.symm.subset h)
  unfold chunk_xor
  rw [key_chunks_flatten_append _ hb, key_chunks_flatten_append _ hb']
  exact List.Perm.foldl_eq' (List.Perm.append_right _ hp)
    (fun x _ y _ z => xor_bytes_right_comm z x y) _

theorem swap_perm (pre mid post : List (List Byte)) (A B : List Byte) :
    (pre ++ A :: (mid ++ B :: post)).Perm (pre ++ B :: (mid ++ A :: post)) := by
  apply List.Perm.append_left
  have h1 : (A :: (mid ++ B :: post)).Perm (A :: B :: (mid ++ post)) :=
    List.Perm.cons A List.perm_middle
  have h2 : (B :: (mid ++ A :: post)).Perm (B :: A :: (mid ++ post)) :=
    List.Perm.cons B List.perm_middle
  exact h1.trans ((List.Perm.swap B A _).trans h2.symm)

/-- With no mixing per block the reference hash depends on the key only through the XOR of
its chunks and, when the length is folded in, through its length. -/
theorem reference_from_chunk_xor (F C : Bool) (init : State) (key key' : List Byte)
    (hx : chunk_xor key = chunk_xor key') (hl : F = true → key.length = key'.length) :
    reference_from 0 F C init key = reference_from 0 F C init key' := by
  cases F
  · simp only [reference_from, foldl_absorb_zero_eq_chunk_xor, hx, Bool.false_eq_true, if_false]
  · simp only [reference_from, foldl_absorb_zero_eq_chunk_xor, hx, hl rfl]

theorem chunk_xor_nil : chunk_xor [] = List.replicate 16 0 := rfl

theorem chunk_xor_double (B : List Byte) (hB : B.length = 16) :
    chunk_xor (B ++ B) = chunk_xor [] := by
  have h := key_chunks_flatten_append [B, B] (by simp [hB]) []
  simp only [List.flatten_cons, List.flatten_nil, List.append_nil, key_chunks_nil] at h
  rw [chunk_xor, h, chunk_xor_nil]
  exact xor_bytes_cancel _ _ (by simp [hB])


/-! ## The claims on the variants without per-block mixing -/

/-- C16: the output of variant 1 depends on the key only through the XOR of its zero-padded
16-byte chunks: for every seed, two keys of any lengths whose chunks XOR to the same 16
bytes have identical outputs; in particular a 16-byte block followed by itself hashes like
the empty key, and reordering the 16-byte chunks of a key whose length is a multiple of 16
does not change the output. -/
theorem variant_1_depends_on_chunk_xor_only :
    (∀ (key key' : List Byte) (seed : Nat), chunk_xor key = chunk_xor key' →
      goodhart_hash_1_test USE_SEED key key.length seed
        = goodhart_hash_1_test USE_SEED key' key'.length seed)
    ∧ (∀ (B : List Byte) (seed : Nat), B.length = 16 →
      goodhart_hash_1_test USE_SEED (B ++ B) 32 seed = goodhart_hash_1_test USE_SEED [] 0 seed)
    ∧ (∀ (blocks blocks' : List (List Byte)) (key key' : List Byte) (seed : Nat),
      (∀ b ∈ blocks, b.length = 16) → blocks.Perm blocks' →
      key = blocks.flatten → key' = blocks'.flatten →
      goodhart_hash_1_test USE_SEED key key.length seed
        = goodhart_hash_1_test USE_SEED key' key'.length seed) := by
  have main : ∀ (key key' : List Byte) (seed : Nat), chunk_xor key = chunk_xor key' →
      goodhart_hash_1_test USE_SEED key key.length seed
        = goodhart_hash_1_test USE_SEED key' key'.length seed := by
    intro key key' seed hx
    rw [goodhart_hash_1_test_eq, goodhart_hash_1_test_eq]
    exact reference_from_chunk_xor false false _ key key' hx (fun h => by cases h)
  refine ⟨main, fun B seed hB => ?_, fun blocks blocks' key key' seed hb hp hk hk' => ?_⟩
  · have h := main (B ++ B) [] seed (chunk_xor_double B hB)
    rw [List.length_append, hB, List.length_nil] at h
    exact h
  · subst hk hk'
    have h := chunk_xor_perm blocks blocks' hb hp []
    rw [List.append_nil, List.append_nil] at h
    exact main _ _ seed h

theorem variant_1_depends_on_chunk_xor_only_witness :
    chunk_xor (collision_key_1 ++ collision_key_2 ++ key_ABCDE)
        = chunk_xor (key_ABCDE ++ List.replicate 11 0 ++ collision_key_2 ++ collision_key_1)
    ∧ goodhart_hash_1_test USE_SEED (collision_key_1 ++ collision_key_2 ++ key_ABCDE)
          (collision_key_1 ++ collision_key_2 ++ key_ABCDE).length 0
        = goodhart_hash_1_test USE_SEED
            (key_ABCDE ++ List.replicate 11 0 ++ collision_key_2 ++ collision_key_1)
            (key_ABCDE ++ List.replicate 11 0 ++ collision_key_2 ++ collision_key_1).length 0
    ∧ collision_key_1.length = 16
    ∧ goodhart_hash_1_test USE_SEED (collision_key_1 ++ collision_key_1) 32 0
        = goodhart_hash_1_test USE_SEED [] 0 0 :=
  ⟨by decide, variant_1_depends_on_chunk_xor_only.1 _ _ 0 (by decide), by decide,
    variant_1_depends_on_chunk_xor_only.2.1 collision_key_1 0 (by decide)⟩

/-- C17: the output of variant 2 depends on the key only through its length and the XOR of
its zero-padded 16-byte chunks: for every seed, two keys of the same length whose chunks
XOR to the same 16 bytes have identical outputs; in particular swapping two full 16-byte
chunks `A` and `B` of a key leaves the output unchanged. -/
theorem variant_2_depends_on_length_and_chunk_xor_only :
    (∀ (key key' : List Byte) (seed : Nat), key.length = key'.length →
      chunk_xor key = chunk_xor key' →
      goodhart_hash_2_test USE_SEED key key.length seed
        = goodhart_hash_2_test USE_SEED key' key'.length seed)
    ∧ (∀ (pre mid : List (List Byte)) (A B rest key key' : List Byte) (seed : Nat),
      (∀ b ∈ pre, b.length = 16) → (∀ b ∈ mid, b.length = 16) →
      A.length = 16 → B.length = 16 →
      key = (pre ++ A :: (mid ++ [B])).flatten ++ rest →
      key' = (pre ++ B :: (mid ++ [A])).flatten ++ rest →
      goodhart_hash_2_test USE_SEED key key.length seed
        = goodhart_hash_2_test USE_SEED key' key'.length seed) := by
  have main : ∀ (key key' : List Byte) (seed : Nat), key.length = key'.length →
      chunk_xor key = chunk_xor key' →
      goodhart_hash_2_test USE_SEED key key.length seed
        = goodhart_hash_2_test USE_SEED key' key'.length seed := by
    intro key key' seed hl hx
    rw [goodhart_hash_2_test_eq, goodhart_hash_2_test_eq]
    exact reference_from_chunk_xor true false _ key key' hx (fun _ => hl)
  refine ⟨main, fun pre mid A B rest key key' seed hpre hmid hA hB hk hk' => ?_⟩
  subst hk hk'
  have hp := swap_perm pre mid [] A B
  have hb : ∀ b ∈ pre ++ A :: (mid ++ [B]), b.length = 16 := by
    intro b hmem
    simp only [List.mem_append, List.mem_cons, List.mem_singleton, List.not_mem_nil,
      or_false] at hmem
    rcases hmem with h | h | h | h
    · exact hpre b h
    · rw [h]; exact hA
    · exact hmid b h
    · rw [h]; exact hB
  apply main
  · rw [List.length_append, List.length_append, (List.Perm.flatten hp).length_eq]
  · exact chunk_xor_perm _ _ hb hp rest

theorem variant_2_depends_on_length_and_chunk_xor_only_witness :
    collision_key_1.length = 16 ∧ collision_key_2.length = 16
    ∧ goodhart_hash_2_test USE_SEED (collision_key_1 ++ collision_key_2 ++ key_ABCDE)
          (collision_key_1 ++ collision_key_2 ++ key_ABCDE).length 0
        = goodhart_hash_2_test USE_SEED (collision_key_2 ++ collision_key_1 ++ key_ABCDE)
          (collision_key_2 ++ collision_key_1 ++ key_ABCDE).length 0 :=
  ⟨by decide, by decide,
    variant_2_depends_on_length_and_chunk_xor_only.2 [] [] collision_key_1 collision_key_2
      key_ABCDE _ _ 0 (by simp) (by simp) (by decide) (by decide) (by simp) (by simp)⟩


/-! ## A change in one chunk position -/

theorem xor_in_inj_chunk (st : State) (c c' : List Byte) (hc : c.length = 16)
    (hc' : c'.length = 16) (h : xor_in st c = xor_in st c') : c = c' := by
  simp only [xor_in, Prod.mk.injEq, Nat.xor_right_inj] at h
  have e1 := le_decode_inj _ _ (by simp [hc, hc']) h.1
  have e2 := le_decode_inj _ _ (by simp [hc, hc']) h.2
  rw [← List.take_append_drop 8 c, ← List.take_append_drop 8 c', e1, e2]

theorem xor_in_valid (st : State) (c : List Byte) (hst : Valid st) (hc : c.length = 16) :
    Valid (xor_in st c) :=
  ⟨Nat.xor_lt_two_pow hst.1 (le_decode_lt_u64 _ (by simp)),
    Nat.xor_lt_two_pow hst.2 (le_decode_lt_u64 _ (by simp [hc]))⟩

theorem absorb_block_inj_chunk (R : Nat) (st : State) (c c' : List Byte) (hst : Valid st)
    (hc : c.length = 16) (hc' : c'.length = 16)
    (h : absorb_block R st c = absorb_block R st c') : c = c' :=
  xor_in_inj_chunk st c c' hc hc'
    (mix_state_inj R _ _ (xor_in_valid st c hst hc) (xor_in_valid st c' hst hc') h)

/-- Two chunk lists of the same length that differ at exactly one position are absorbed
into different states. -/
theorem foldl_absorb_single_difference (R : Nat) :
    ∀ (cs cs' : List (List Byte)) (j : Nat) (st : State), Valid st →
      (∀ c ∈ cs, c.length = 16) → (∀ c ∈ cs', c.length = 16) → cs.length = cs'.length →
      cs[j]? ≠ cs'[j]? → (∀ i, i ≠ j → cs[i]? = cs'[i]?) →
      cs.foldl (absorb_block R) st ≠ cs'.foldl (absorb_block R) st := by
  intro cs
  induction cs with
  | nil =>
    intro cs' j st _ _ _ hlen hj _
    have hnil : cs' = [] := List.eq_nil_of_length_eq_zero hlen.symm
    subst hnil
    exact absurd rfl hj
  | cons c t ih =>
    intro cs' j st hst hcs hcs' hlen hj hother
    cases cs' with
    | nil => simp at hlen
    | cons c' t' =>
      have hc := hcs c (List.mem_cons_self _ _)
      have hc' := hcs' c' (List.mem_cons_self _ _)
      have ht : ∀ d ∈ t, d.length = 16 := fun d hd => hcs d (List.mem_cons_of_mem _ hd)
      have ht' : ∀ d ∈ t', d.length = 16 := fun d hd => hcs' d (List.mem_cons_of_mem _ hd)
      rw [List.foldl_cons, List.foldl_cons]
      cases j with
      | zero =>
        have hne : c ≠ c' := by
          intro e
          apply hj
          rw [List.getElem?_cons_zero, List.getElem?_cons_zero, e]
        have htt : t = t' := by
          apply List.ext_getElem?
          intro i
          have := hother (i + 1) (by omega)
          rwa [List.getElem?_cons_succ, List.getElem?_cons_succ] at this
        subst htt
        intro h
        exact hne (absorb_block_inj_chunk R st c c' hst hc hc'
          (foldl_absorb_inj R t ht _ _ (absorb_block_valid R st c hst hc)
            (absorb_block_valid R st c' hst hc') h))
      | succ k =>
        have hcc : c = c' := by
          have := hother 0 (by omega)
          rw [List.getElem?_cons_zero, List.getElem?_cons_zero] at this
          exact Option.some.inj this
        subst hcc
        apply ih t' k _ (absorb_block_valid R st c hst hc) ht ht' (by simpa using hlen)
        · rwa [List.getElem?_cons_succ, List.getElem?_cons_succ] at hj
        · intro i hi
          have := hother (i + 1) (by omega)
          rwa [List.getElem?_cons_succ, List.getElem?_cons_succ] at this

theorem key_chunks_getElem? (key : List Byte) (i : Nat) :
    (key_chunks key)[i]?
      = if i < (key.length + 15) / 16 then some (zero_pad (key_chunk key i)) else none := by
  unfold key_chunks key_chunk
  rw [List.getElem?_map]
  by_cases h : i < (key.length + 15) / 16
  · rw [List.getElem?_range h, if_pos h]
    rfl
  · rw [List.getElem?_eq_none (by rw [List.length_range]; omega), if_neg h]
    rfl

theorem key_chunk_length (key : List Byte) (i : Nat) :
    (key_chunk key i).length = min 16 (key.length - 16 * i) := by
  simp [key_chunk]

theorem zero_pad_inj (a b : List Byte) (h : a.length = b.length)
    (e : zero_pad a = zero_pad b) : a = b := by
  unfold zero_pad at e
  exact (List.append_inj e h).1

/-- Two keys of the same length that differ in exactly one chunk position are absorbed
into different states. -/
theorem absorbed_single_chunk_difference (R : Nat) (init : State) (hinit : Valid init)
    (key key' : List Byte) (j : Nat) (hlen : key.length = key'.length)
    (hj : key_chunk key j ≠ key_chunk key' j)
    (hother : ∀ i, i ≠ j → key_chunk key i = key_chunk key' i) :
    (key_chunks key).foldl (absorb_block R) init
      ≠ (key_chunks key').foldl (absorb_block R) init := by
  have hjlt : j < (key.length + 15) / 16 := by
    by_contra hge
    apply hj
    have h1 : (key_chunk key j).length = 0 := by rw [key_chunk_length]; omega
    have h2 : (key_chunk key' j).length = 0 := by rw [key_chunk_length]; omega
    rw [List.eq_nil_of_length_eq_zero h1, List.eq_nil_of_length_eq_zero h2]
  apply foldl_absorb_single_difference R _ _ j init hinit (key_chunks_length key)
    (key_chunks_length key')
  · simp [key_chunks, hlen]
  · rw [key_chunks_getElem?, key_chunks_getElem?, ← hlen, if_pos hjlt, if_pos hjlt]
    intro e
    exact hj (zero_pad_inj _ _ (by rw [key_chunk_length, key_chunk_length, hlen])
      (Option.some.inj e))
  · intro i hi
    rw [key_chunks_getElem?, key_chunks_getElem?, ← hlen, hother i hi]

/-- Without the collapse step, keys of the same length absorbed into different states have
different reference outputs. -/
theorem reference_from_of_absorbed_ne (R : Nat) (F : Bool) (init : State) (hinit : Valid init)
    (key key' : List Byte) (hlen : key.length = key'.length)
    (hne : (key_chunks key).foldl (absorb_block R) init
      ≠ (key_chunks key').foldl (absorb_block R) init) :
    reference_from R F false init key ≠ reference_from R F false init key' := by
  intro h
  apply hne
  have v := foldl_absorb_valid R (key_chunks key) (key_chunks_length key) init hinit
  have v' := foldl_absorb_valid R (key_chunks key') (key_chunks_length key') init hinit
  cases F
  · simp only [reference_from, Bool.false_eq_true, if_false] at h
    exact mix_state_inj 12 _ _ v v'
      (state_bytes_inj _ _ (mix_state_valid _ v 12) (mix_state_valid _ v' 12) h)
  · simp only [reference_from, Bool.false_eq_true, if_true, if_false, hlen] at h
    have w := fold_length_valid _ key'.length v
    have w' := fold_length_valid _ key'.length v'
    have e := mix_state_inj 12 _ _ w w'
      (state_bytes_inj _ _ (mix_state_valid _ w 12) (mix_state_valid _ w' 12) h)
    simp only [Prod.mk.injEq, Nat.xor_left_inj] at e
    exact Prod.ext e.1 e.2


/-- Shared step of the chunk claim, for one parameter set of the reference hash. -/
theorem reference_from_single_chunk_difference (R : Nat) (F : Bool) (seed : Nat)
    (key key' : List Byte) (j : Nat) (hlen : key.length = key'.length)
    (hj : key_chunk key j ≠ key_chunk key' j)
    (hother : ∀ i, i ≠ j → key_chunk key i = key_chunk key' i) :
    reference_from R F false (if USE_SEED then mix_state (seed % 2 ^ 32, 0) 12 else (0, 0)) key
      ≠ reference_from R F false
          (if USE_SEED then mix_state (seed % 2 ^ 32, 0) 12 else (0, 0)) key' :=
  reference_from_of_absorbed_ne R F _ (initial_valid USE_SEED seed) key key' hlen
    (absorbed_single_chunk_difference R _ (initial_valid USE_SEED seed) key key' j hlen hj hother)

theorem short_keys_differ_in_chunk_zero (key key' : List Byte) (hlen : key.length = key'.length)
    (h16 : key.length ≤ 16) (hne : key ≠ key') :
    key_chunk key 0 ≠ key_chunk key' 0 ∧ ∀ i, i ≠ 0 → key_chunk key i = key_chunk key' i := by
  constructor
  · simp only [key_chunk, Nat.mul_zero, List.drop_zero]
    rw [List.take_of_length_le h16, List.take_of_length_le (by omega)]
    exact hne
  · intro i hi
    simp only [key_chunk]
    rw [List.drop_of_length_le (by omega), List.drop_of_length_le (by omega)]

/-- C15: for each of variants 1 to 5 and every seed, two keys of the same length that differ
in the content of exactly one 16-byte chunk position (all other chunk positions equal)
have different outputs; in particular, for a fixed seed each of these variants is injective
on the keys of any one fixed length between 1 and 16. -/
theorem single_chunk_difference_changes_output :
    (∀ (key key' : List Byte) (seed j : Nat), key.length = key'.length →
      key_chunk key j ≠ key_chunk key' j → (∀ i, i ≠ j → key_chunk key i = key_chunk key' i) →
      goodhart_hash_1_test USE_SEED key key.length seed
          ≠ goodhart_hash_1_test USE_SEED key' key'.length seed
      ∧ goodhart_hash_2_test USE_SEED key key.length seed
          ≠ goodhart_hash_2_test USE_SEED key' key'.length seed
      ∧ goodhart_hash_3_test USE_SEED key key.length seed
          ≠ goodhart_hash_3_test USE_SEED key' key'.length seed
      ∧ goodhart_hash_4_test USE_SEED key key.length seed
          ≠ goodhart_hash_4_test USE_SEED key' key'.length seed
      ∧ goodhart_hash_5_test USE_SEED key key.length seed
          ≠ goodhart_hash_5_test USE_SEED key' key'.length seed)
    ∧ (∀ (key key' : List Byte) (seed : Nat), key.length = key'.length →
      1 ≤ key.length → key.length ≤ 16 → key ≠ key' →
      goodhart_hash_1_test USE_SEED key key.length seed
          ≠ goodhart_hash_1_test USE_SEED key' key'.length seed
      ∧ goodhart_hash_2_test USE_SEED key key.length seed
          ≠ goodhart_hash_2_test USE_SEED key' key'.length seed
      ∧ goodhart_hash_3_test USE_SEED key key.length seed
          ≠ goodhart_hash_3_test USE_SEED key' key'.length seed
      ∧ goodhart_hash_4_test USE_SEED key key.length seed
          ≠ goodhart_hash_4_test USE_SEED key' key'.length seed
      ∧ goodhart_hash_5_test USE_SEED key key.length seed
          ≠ goodhart_hash_5_test USE_SEED key' key'.length seed) := by
  have main : ∀ (key key' : List Byte) (seed j : Nat), key.length = key'.length →
      key_chunk key j ≠ key_chunk key' j → (∀ i, i ≠ j → key_chunk key i = key_chunk key' i) →
      goodhart_hash_1_test USE_SEED key key.length seed
          ≠ goodhart_hash_1_test USE_SEED key' key'.length seed
      ∧ goodhart_hash_2_test USE_SEED key key.length seed
          ≠ goodhart_hash_2_test USE_SEED key' key'.length seed
      ∧ goodhart_hash_3_test USE_SEED key key.length seed
          ≠ goodhart_hash_3_test USE_SEED key' key'.length seed
      ∧ goodhart_hash_4_test USE_SEED key key.length seed
          ≠ goodhart_hash_4_test USE_SEED key' key'.length seed
      ∧ goodhart_hash_5_test USE_SEED key key.length seed
          ≠ goodhart_hash_5_test USE_SEED key' key'.length seed := by
    intro key key' seed j hlen hj hother
    rw [goodhart_hash_1_test_eq, goodhart_hash_1_test_eq, goodhart_hash_2_test_eq,
      goodhart_hash_2_test_eq, goodhart_hash_3_test_eq, goodhart_hash_3_test_eq,
      goodhart_hash_4_test_eq, goodhart_hash_4_test_eq, goodhart_hash_5_test_eq,
      goodhart_hash_5_test_eq]
    exact ⟨reference_from_single_chunk_difference 0 false seed key key' j hlen hj hother,
      reference_from_single_chunk_difference 0 true seed key key' j hlen hj hother,
      reference_from_single_chunk_difference 12 true seed key key' j hlen hj hother,
      reference_from_single_chunk_difference 4 true seed key key' j hlen hj hother,
      reference_from_single_chunk_difference 5 true seed key key' j hlen hj hother⟩
  refine ⟨main, fun key key' seed hlen _ h16 hne => ?_⟩
  obtain ⟨h0, hother⟩ := short_keys_differ_in_chunk_zero key key' hlen h16 hne
  exact main key key' seed 0 hlen h0 hother

theorem single_chunk_difference_changes_output_witness :
    key_ABCDE.length = key_ABCDF.length ∧ 1 ≤ key_ABCDE.length ∧ key_ABCDE.length ≤ 16
    ∧ key_ABCDE ≠ key_ABCDF
    ∧ (collision_key_1 ++ key_ABCDE).length = (collision_key_1 ++ key_ABCDF).length
    ∧ key_chunk (collision_key_1 ++ key_ABCDE) 1 ≠ key_chunk (collision_key_1 ++ key_ABCDF) 1
    ∧ goodhart_hash_5_test USE_SEED key_ABCDE key_ABCDE.length 0
        ≠ goodhart_hash_5_test USE_SEED key_ABCDF key_ABCDF.length 0
    ∧ goodhart_hash_3_test USE_SEED (collision_key_1 ++ key_ABCDE)
          (collision_key_1 ++ key_ABCDE).length 0
        ≠ goodhart_hash_3_test USE_SEED (collision_key_1 ++ key_ABCDF)
          (collision_key_1 ++ key_ABCDF).length 0 :=
  ⟨by decide, by decide, by decide, by decide, by decide, by decide,
    (single_chunk_difference_changes_output.2 key_ABCDE key_ABCDF 0 (by decide) (by decide)
      (by decide) (by decide)).2.2.2.2,
    (single_chunk_difference_changes_output.1 (collision_key_1 ++ key_ABCDE)
      (collision_key_1 ++ key_ABCDF) 0 1 (by decide) (by decide)
      (fun i hi => by
        rcases i with _ | _ | i
        · rfl
        · exact absurd rfl hi
        · simp only [key_chunk]
          rw [List.drop_of_length_le (by simp [collision_key_1, key_ABCDE]; omega),
            List.drop_of_length_le (by simp [collision_key_1, key_ABCDF]; omega)])).2.2.1⟩

end Goodhart
